import Mathlib

/-!
Verification of the quantity extraction and normalization engine of
`edsnlp/pipes/misc/quantities/quantities.py`.

The Python source is shallowly embedded:
* floats become `ℚ` (numeric payloads, scales);
* Python dicts become association lists with insertion-order semantics
  (`dictGet?` finds the first binding, `dictInsert` overwrites in place or
  appends);
* code that raises a locally caught exception becomes `Option`-valued;
* `unicodedata.normalize("NFKC", ·)` is modelled as the identity (every key
  involved here is plain ASCII, on which NFKC is the identity).
-/

namespace EdsnlpQuantities

/-- `s.startswith(p)` on Python strings, via the character lists. -/
def strStartsWith (s p : String) : Bool :=
  p.data.isPrefixOf s.data

theorem data_append (a b : String) : (a ++ b).data = a.data ++ b.data := rfl

theorem strStartsWith_append (p s : String) : strStartsWith (p ++ s) p = true := by
  simp [strStartsWith, data_append, List.isPrefixOf_iff_prefix]

theorem string_mk_data (s : String) : String.mk s.data = s := rfl

/-- `regex.split("(?<!per)_", unit)`: split at every underscore whose three
preceding characters are not exactly `per`.  `rseen` holds the characters
already scanned, most recent first; `cur` holds the current piece reversed. -/
def splitUnitChars : List Char → List Char → List Char → List (List Char)
  | [], _, cur => [cur.reverse]
  | c :: rest, rseen, cur =>
    if c = '_' ∧ rseen.take 3 ≠ ['r', 'e', 'p'] then
      cur.reverse :: splitUnitChars rest (c :: rseen) []
    else
      splitUnitChars rest (c :: rseen) (c :: cur)

/-- The pieces of a composite unit key, as split by
`regex.split("(?<!per)_", unit)` in `UnitRegistry.parse_unit`. -/
def splitUnit (s : String) : List String :=
  (splitUnitChars s.data [] []).map String.mk

/-- If no underscore remains to scan, no further split happens. -/
theorem splitUnitChars_no_underscore (l : List Char) (hl : '_' ∉ l) :
    ∀ rseen cur, splitUnitChars l rseen cur = [(cur.reverse ++ l)] := by
  induction l with
  | nil => intro rseen cur; simp [splitUnitChars]
  | cons c rest ih =>
    intro rseen cur
    have hc : ¬ c = '_' := fun h => hl (by simp [h])
    have hrest : '_' ∉ rest := fun h => hl (by simp [h])
    simp only [splitUnitChars, hc, false_and, if_false]
    rw [ih hrest]
    simp

/-- A key without underscores is its own single atom. -/
theorem splitUnit_atom (s : String) (hs : '_' ∉ s.data) :
    splitUnit s = [s] := by
  unfold splitUnit
  rw [splitUnitChars_no_underscore s.data hs [] []]
  simp [string_mk_data]

/-- `per_` prefixed to an atom stays one piece: the single underscore of
`"per_" ++ s` is preceded by exactly `per`, so the lookbehind blocks the split. -/
theorem splitUnit_per_atom (s : String) (hs : '_' ∉ s.data) :
    splitUnit ("per_" ++ s) = ["per_" ++ s] := by
  unfold splitUnit
  have h : ("per_" ++ s).data = 'p' :: 'e' :: 'r' :: '_' :: s.data := by
    rw [data_append]; rfl
  rw [h]
  rw [show splitUnitChars ('p' :: 'e' :: 'r' :: '_' :: s.data) [] []
      = splitUnitChars s.data ['_', 'r', 'e', 'p'] ['_', 'r', 'e', 'p'] from by
    simp [splitUnitChars]]
  rw [splitUnitChars_no_underscore s.data hs]
  have h2 : String.mk ('p' :: 'e' :: 'r' :: '_' :: s.data) = "per_" ++ s := by
    rw [← h]
  simp only [List.reverse_cons, List.reverse_nil, List.nil_append, List.cons_append,
    List.append_nil, List.map_cons, List.map_nil]
  rw [h2]

/-- One entry of the `units_config` table (`UnitConfig` in the source).
The surface-term list and the optional follower unit play no role in
`UnitRegistry`, whose construction only reads `dim`, `degree` and `scale`
(the follower table is kept separately, see `unitFollowers` below). -/
structure UnitConfig where
  dim : String
  degree : Int
  scale : ℚ
deriving DecidableEq, Repr

/-- A Python dict as an association list in insertion order: lookup finds the
first (unique) binding. -/
def dictGet? {α : Type} (l : List (String × α)) (k : String) : Option α :=
  (l.find? (fun p => p.1 = k)).map (·.2)

/-- `d[k] = v` on a Python dict: overwrite in place if the key is bound,
append otherwise. -/
def dictInsert {α : Type} (l : List (String × α)) (k : String) (v : α) :
    List (String × α) :=
  if l.any (fun p => p.1 = k) then
    l.map (fun p => if p.1 = k then (k, v) else p)
  else
    l ++ [(k, v)]

/-- The field names a well-formed `UnitConfig` entry (a `TypedDict`) can have.
`UnitRegistry.__init__` tests `"per_" + unit not in unit_config`, a membership
test against these keys, which never start with `per_`. -/
def unitConfigFieldNames : List String :=
  ["dim", "degree", "scale", "terms", "followed_by"]

/-- One iteration of the loop in `UnitRegistry.__init__`: for a unit key that
does not start with `per_` (and subject to the vacuous field-name membership
test of the source), insert the implicit reciprocal entry. -/
def registryStep (acc : List (String × UnitConfig)) (e : String × UnitConfig) :
    List (String × UnitConfig) :=
  if ¬ strStartsWith e.1 "per_" ∧ ("per_" ++ e.1) ∉ unitConfigFieldNames then
    dictInsert acc ("per_" ++ e.1) ⟨e.2.dim, -e.2.degree, 1 / e.2.scale⟩
  else acc

/-- `UnitRegistry.__init__`: iterate over a snapshot of the configured items
and add the auto-generated reciprocal units to the table. -/
def buildRegistry (config : List (String × UnitConfig)) :
    List (String × UnitConfig) :=
  config.foldl registryStep config

/-- `defaultdict(list)` appending: add `d` to the list bound to `k`, creating
the binding at the end on first use. -/
def appendDegree (l : List (String × List Int)) (k : String) (d : Int) :
    List (String × List Int) :=
  if l.any (fun p => p.1 = k) then
    l.map (fun p => if p.1 = k then (p.1, p.2 ++ [d]) else p)
  else
    l ++ [(k, [d])]

/-- Whether all elements of the list are equal (`len(set(v)) <= 1`). -/
def allEqual : List Int → Bool
  | [] => true
  | d :: rest => rest.all (fun x => x = d)

/-- Insertion into a key-sorted association list. -/
def insertSorted (x : String × Int) : List (String × Int) → List (String × Int)
  | [] => [x]
  | y :: ys => if x.1 < y.1 then x :: y :: ys else y :: insertSorted x ys

/-- `sorted(degrees.items())`: sort an association list by key. -/
def sortByKey (l : List (String × Int)) : List (String × Int) :=
  l.foldr insertSorted []

/-- The dimension-signature comprehension of `parse_unit`: keep the single
recorded degree when all degrees of a dimension agree, sum them otherwise,
drop dimensions whose summed degree is zero, and serialize sorted by name. -/
def finalizeDegrees (ds : List (String × List Int)) : List (String × Int) :=
  sortByKey (ds.filterMap (fun p =>
    if p.2.sum ≠ 0 then
      some (p.1, if allEqual p.2 then p.2.headD 0 else p.2.sum)
    else none))

/-- The loop of `parse_unit`: look up every piece, append its degree under its
dimension and multiply the scales; an unknown atom is a `KeyError` (`none`). -/
def collectDegrees (cfg : List (String × UnitConfig)) (parts : List String) :
    Option (List (String × List Int) × ℚ) :=
  parts.foldlM (fun acc p => do
    let c ← dictGet? cfg p
    pure (appendDegree acc.1 c.dim c.degree, acc.2 * c.scale)) ([], 1)

/-- `UnitRegistry.parse_unit`: dimension signature (a key-sorted association
list standing for the serialized `str(dict(sorted(...)))`) and scale of a
composite unit key.  `none` models the `KeyError` raised on an unknown atom. -/
def parse_unit (cfg : List (String × UnitConfig)) (unit : String) :
    Option (List (String × Int) × ℚ) := do
  let (degrees, scale) ← collectDegrees cfg (splitUnit unit)
  pure (finalizeDegrees degrees, scale)

theorem string_data_inj {a b : String} (h : a.data = b.data) : a = b := by
  cases a; cases b; exact congrArg String.mk h

theorem per_append_inj {a b : String} (h : "per_" ++ a = "per_" ++ b) :
    a = b := by
  have := congrArg String.data h
  rw [data_append, data_append] at this
  exact string_data_inj (List.append_cancel_left this)

theorem per_append_notin_fields (u : String) :
    ("per_" ++ u) ∉ unitConfigFieldNames := by
  have hp := strStartsWith_append "per_" u
  intro hmem
  simp only [unitConfigFieldNames, List.mem_cons, List.not_mem_nil, or_false] at hmem
  rcases hmem with h | h | h | h | h <;> rw [h] at hp <;> revert hp <;> decide

theorem dictGet?_cons_eq {α : Type} (p : String × α) (t : List (String × α))
    (k : String) (h : p.1 = k) : dictGet? (p :: t) k = some p.2 := by
  simp [dictGet?, List.find?_cons_of_pos, h]

theorem dictGet?_cons_ne {α : Type} (p : String × α) (t : List (String × α))
    (k : String) (h : p.1 ≠ k) : dictGet? (p :: t) k = dictGet? t k := by
  simp [dictGet?, List.find?_cons_of_neg, h]

theorem dictInsert_cons_ne {α : Type} (p : String × α) (t : List (String × α))
    (k : String) (v : α) (h : p.1 ≠ k) :
    dictInsert (p :: t) k v = p :: dictInsert t k v := by
  by_cases ht : t.any (fun q => q.1 = k) <;>
    simp [dictInsert, List.any_cons, h, ht]

theorem dictGet?_insert_self {α : Type} (l : List (String × α)) (k : String)
    (v : α) : dictGet? (dictInsert l k v) k = some v := by
  induction l with
  | nil => simp [dictInsert, dictGet?]
  | cons p t ih =>
    by_cases hp : p.1 = k
    · have h1 : dictInsert (p :: t) k v
          = (k, v) :: t.map (fun q => if q.1 = k then (k, v) else q) := by
        simp [dictInsert, List.any_cons, hp]
      rw [h1, dictGet?_cons_eq _ _ _ rfl]
    · rw [dictInsert_cons_ne _ _ _ _ hp, dictGet?_cons_ne _ _ _ hp]
      exact ih

theorem dictGet?_map_overwrite {α : Type} (t : List (String × α))
    (k k' : String) (v : α) (hk : k' ≠ k) :
    dictGet? (t.map (fun q => if q.1 = k then (k, v) else q)) k'
      = dictGet? t k' := by
  induction t with
  | nil => rfl
  | cons q t ih =>
    by_cases hq : q.1 = k
    · rw [List.map_cons, if_pos hq,
        dictGet?_cons_ne _ _ _ (fun h => hk h.symm),
        dictGet?_cons_ne _ _ _ (by rw [hq]; exact fun h => hk h.symm)]
      exact ih
    · rw [List.map_cons, if_neg hq]
      by_cases hq' : q.1 = k'
      · rw [dictGet?_cons_eq _ _ _ hq', dictGet?_cons_eq _ _ _ hq']
      · rw [dictGet?_cons_ne _ _ _ hq', dictGet?_cons_ne _ _ _ hq']
        exact ih

theorem dictGet?_insert_ne {α : Type} (l : List (String × α)) (k k' : String)
    (v : α) (hk : k' ≠ k) : dictGet? (dictInsert l k v) k' = dictGet? l k' := by
  induction l with
  | nil =>
    rw [show dictInsert ([] : List (String × α)) k v = [(k, v)] from by
      simp [dictInsert]]
    rw [dictGet?_cons_ne _ _ _ (fun h => hk h.symm)]
  | cons p t ih =>
    by_cases hp : p.1 = k
    · have h1 : dictInsert (p :: t) k v
          = (k, v) :: t.map (fun q => if q.1 = k then (k, v) else q) := by
        simp [dictInsert, List.any_cons, hp]
      rw [h1, dictGet?_cons_ne _ _ _ (fun h => hk h.symm),
        dictGet?_cons_ne _ _ _ (by rw [hp]; exact fun h => hk h.symm),
        dictGet?_map_overwrite _ _ _ _ hk]
    · rw [dictInsert_cons_ne _ _ _ _ hp]
      by_cases hq' : p.1 = k'
      · rw [dictGet?_cons_eq _ _ _ hq', dictGet?_cons_eq _ _ _ hq']
      · rw [dictGet?_cons_ne _ _ _ hq', dictGet?_cons_ne _ _ _ hq']
        exact ih

theorem dictGet?_split {α : Type} (l : List (String × α)) (k : String) (v : α)
    (h : dictGet? l k = some v) :
    ∃ l₁ l₂, l = l₁ ++ (k, v) :: l₂ ∧ ∀ p ∈ l₁, p.1 ≠ k := by
  induction l with
  | nil => simp [dictGet?, List.find?] at h
  | cons p t ih =>
    by_cases hp : p.1 = k
    · have : p = (k, v) := by
        simp only [dictGet?, List.find?, show (decide (p.1 = k)) = true from by simp [hp]] at h
        cases p
        simp_all
      exact ⟨[], t, by simp [this], by simp⟩
    · simp only [dictGet?, List.find?, show (decide (p.1 = k)) = false from by simp [hp]] at h
      obtain ⟨l₁, l₂, heq, hne⟩ := ih h
      exact ⟨p :: l₁, l₂, by simp [heq], by
        intro q hq
        rcases List.mem_cons.mp hq with rfl | hq'
        · exact hp
        · exact hne q hq'⟩

/-- The construction loop only touches keys starting with `per_`, so the
entry of any other key is the configured one. -/
theorem foldl_registryStep_get_nonper (l : List (String × UnitConfig))
    (acc : List (String × UnitConfig)) (K : String)
    (hK : strStartsWith K "per_" = false) :
    dictGet? (l.foldl registryStep acc) K = dictGet? acc K := by
  induction l generalizing acc with
  | nil => rfl
  | cons e t ih =>
    rw [List.foldl_cons, ih]
    unfold registryStep
    by_cases hcond : ¬ strStartsWith e.1 "per_" ∧ ("per_" ++ e.1) ∉ unitConfigFieldNames
    · rw [if_pos hcond, dictGet?_insert_ne]
      intro h
      rw [h] at hK
      rw [strStartsWith_append] at hK
      exact Bool.true_eq_false.mp hK
    · rw [if_neg hcond]

/-- Iterations over entries whose key differs from `u` leave the binding of
`per_u` alone. -/
theorem foldl_registryStep_get_per_other (l : List (String × UnitConfig))
    (acc : List (String × UnitConfig)) (u : String)
    (hl : ∀ p ∈ l, p.1 ≠ u) :
    dictGet? (l.foldl registryStep acc) ("per_" ++ u)
      = dictGet? acc ("per_" ++ u) := by
  induction l generalizing acc with
  | nil => rfl
  | cons e t ih =>
    rw [List.foldl_cons, ih _ (fun p hp => hl p (List.mem_cons_of_mem e hp))]
    unfold registryStep
    by_cases hcond : ¬ strStartsWith e.1 "per_" ∧ ("per_" ++ e.1) ∉ unitConfigFieldNames
    · rw [if_pos hcond, dictGet?_insert_ne]
      intro h
      exact hl e (List.mem_cons_self e t) (per_append_inj h.symm).symm.symm
    · rw [if_neg hcond]

/-- A key that does not start with `per_` keeps its configured entry in the
constructed registry. -/
theorem buildRegistry_get_nonper (cfg : List (String × UnitConfig))
    (K : String) (hK : strStartsWith K "per_" = false) :
    dictGet? (buildRegistry cfg) K = dictGet? cfg K :=
  foldl_registryStep_get_nonper cfg cfg K hK

/-- The invariant of `UnitRegistry.__init__`: for every configured unit `u`
not starting with `per_`, the constructed registry binds `per_u` to the
auto-generated reciprocal entry (negated degree, reciprocal scale). -/
theorem buildRegistry_get_per (cfg : List (String × UnitConfig)) (u : String)
    (c : UnitConfig) (hnodup : (cfg.map Prod.fst).Nodup)
    (hmem : dictGet? cfg u = some c)
    (hper : strStartsWith u "per_" = false) :
    dictGet? (buildRegistry cfg) ("per_" ++ u)
      = some ⟨c.dim, -c.degree, 1 / c.scale⟩ := by
  obtain ⟨l₁, l₂, heq, -⟩ := dictGet?_split cfg u c hmem
  have hl₂ : ∀ p ∈ l₂, p.1 ≠ u := by
    intro p hp h
    rw [heq] at hnodup
    simp only [List.map_append, List.map_cons] at hnodup
    have := (List.nodup_append.mp hnodup).2.1
    exact (List.nodup_cons.mp this).1 (by
      rw [← h]
      exact List.mem_map_of_mem Prod.fst hp)
  unfold buildRegistry
  rw [heq, List.foldl_append, List.foldl_cons]
  rw [foldl_registryStep_get_per_other l₂ _ u hl₂]
  unfold registryStep
  rw [if_pos ⟨by rw [hper]; exact Bool.false_ne_true, per_append_notin_fields u⟩]
  exact dictGet?_insert_self _ _ _

/-- Evaluation of `parse_unit` on a single already-split piece bound to `c`
with nonzero degree. -/
theorem parse_unit_single_piece (cfg : List (String × UnitConfig)) (u : String)
    (c : UnitConfig) (hsplit : splitUnit u = [u])
    (hc : dictGet? cfg u = some c) (hd : c.degree ≠ 0) :
    parse_unit cfg u = some ([(c.dim, c.degree)], c.scale) := by
  unfold parse_unit
  rw [hsplit]
  simp [collectDegrees, hc, appendDegree, finalizeDegrees, allEqual,
    sortByKey, insertSorted, hd]

/-- Claim C3: for every unit atom `U` registered at construction whose key
does not start with `per_` and whose degree is nonzero, `parse_unit` on
`"per_" ++ U` yields the dimension-wise negation of `parse_unit U`'s
signature, and the reciprocal of its scale.  (`hscale` records that the
Python construction would have raised `ZeroDivisionError` on a zero scale;
`hatom` says `U` is an atomic identifier, i.e. has no underscore.) -/
theorem c3_per_unit_closure (cfg : List (String × UnitConfig)) (U : String)
    (c : UnitConfig) (hnodup : (cfg.map Prod.fst).Nodup)
    (hmem : dictGet? cfg U = some c)
    (hper : strStartsWith U "per_" = false)
    (hatom : '_' ∉ U.data)
    (hdeg : c.degree ≠ 0)
    (hscale : c.scale ≠ 0) :
    ∃ sig sc, parse_unit (buildRegistry cfg) U = some (sig, sc) ∧
      parse_unit (buildRegistry cfg) ("per_" ++ U) =
        some (sig.map (fun p => (p.1, -p.2)), sc⁻¹) := by
  refine ⟨[(c.dim, c.degree)], c.scale, ?_, ?_⟩
  · exact parse_unit_single_piece _ _ _ (splitUnit_atom U hatom)
      (by rw [buildRegistry_get_nonper _ _ hper]; exact hmem) hdeg
  · have hgen := buildRegistry_get_per cfg U c hnodup hmem hper
    rw [parse_unit_single_piece _ _ _ (splitUnit_per_atom U hatom) hgen
      (by simpa using hdeg)]
    simp [one_div]

/-- Deduplication keeping the first occurrence of each element (the key
order of a Python dict populated left to right). -/
def dedupKeepFirst : List String → List String
  | [] => []
  | x :: xs => x :: (dedupKeepFirst xs).filter (fun y => y ≠ x)

theorem mem_dedupKeepFirst (x : String) (l : List String) :
    x ∈ dedupKeepFirst l ↔ x ∈ l := by
  induction l with
  | nil => simp [dedupKeepFirst]
  | cons y t ih =>
    simp only [dedupKeepFirst, List.mem_cons, List.mem_filter, ih]
    constructor
    · rintro (rfl | ⟨h, -⟩)
      · exact Or.inl rfl
      · exact Or.inr h
    · rintro (rfl | h)
      · exact Or.inl rfl
      · by_cases hxy : x = y
        · exact Or.inl hxy
        · exact Or.inr ⟨h, by simpa using hxy⟩

theorem dedupKeepFirst_append_singleton (l : List String) (x : String) :
    dedupKeepFirst (l ++ [x])
      = if x ∈ l then dedupKeepFirst l else dedupKeepFirst l ++ [x] := by
  induction l with
  | nil => simp [dedupKeepFirst]
  | cons y t ih =>
    by_cases hxt : x ∈ t
    · rw [List.cons_append, if_pos (List.mem_cons_of_mem y hxt)]
      unfold dedupKeepFirst
      rw [ih, if_pos hxt]
    · by_cases hxy : x = y
      · rw [List.cons_append, if_pos (by rw [hxy]; exact List.mem_cons_self y t)]
        unfold dedupKeepFirst
        rw [ih, if_neg hxt, List.filter_append]
        rw [show ([x].filter (fun z => z ≠ y)) = [] from by simp [hxy]]
        rw [List.append_nil]
      · rw [List.cons_append, if_neg (by simp [hxy, hxt])]
        unfold dedupKeepFirst
        rw [ih, if_neg hxt, List.filter_append]
        rw [show ([x].filter (fun z => z ≠ y)) = [x] from by simp [hxy]]
        rw [List.cons_append]

/-- Dimension-wise grouping spec, from the claim's wording: for each distinct
dimension of the atoms, the list of the atoms' recorded degrees for it. -/
def groupedDegrees (cs : List UnitConfig) : List (String × List Int) :=
  (dedupKeepFirst (cs.map (fun c => c.dim))).map
    (fun k => (k, (cs.filter (fun c => c.dim = k)).map (fun c => c.degree)))

/-- The `defaultdict` accumulation of `parse_unit` computes exactly the
dimension-wise grouping. -/
theorem foldl_appendDegree_eq_grouped (cs : List UnitConfig) :
    cs.foldl (fun a c => appendDegree a c.dim c.degree) [] = groupedDegrees cs := by
  induction cs using List.reverseRecOn with
  | nil => rfl
  | append_singleton cs c ih =>
    rw [List.foldl_append, List.foldl_cons, List.foldl_nil, ih]
    unfold groupedDegrees
    simp only [List.map_append, List.map_cons, List.map_nil]
    rw [dedupKeepFirst_append_singleton]
    by_cases hmem : c.dim ∈ cs.map (fun c => c.dim)
    · rw [if_pos hmem]
      have hany : ((dedupKeepFirst (cs.map (fun c => c.dim))).map
          (fun k => (k, (cs.filter (fun c => c.dim = k)).map (fun c => c.degree)))).any
            (fun p => p.1 = c.dim) = true :=
        List.any_eq_true.mpr ⟨_,
          List.mem_map_of_mem _ ((mem_dedupKeepFirst _ _).mpr hmem), by simp⟩
      unfold appendDegree
      rw [if_pos hany, List.map_map]
      refine List.map_congr_left (fun k hk => ?_)
      by_cases hkc : k = c.dim
      · subst hkc
        simp [List.filter_append, List.filter]
      · have hck : (decide (c.dim = k)) = false := by
          simp only [decide_eq_false_iff_not]
          exact fun h => hkc h.symm
        simp [Function.comp, hkc, List.filter_append, List.filter, hck]
    · rw [if_neg hmem]
      have hany : ((dedupKeepFirst (cs.map (fun c => c.dim))).map
          (fun k => (k, (cs.filter (fun c => c.dim = k)).map (fun c => c.degree)))).any
            (fun p => p.1 = c.dim) = false := by
        rw [List.any_eq_false]
        intro p hp
        obtain ⟨k, hk, rfl⟩ := List.mem_map.mp hp
        simp only [decide_eq_true_eq]
        intro hkc
        exact hmem (by rw [← hkc]; exact (mem_dedupKeepFirst _ _).mp hk)
      unfold appendDegree
      rw [if_neg (by rw [hany]; exact Bool.false_ne_true), List.map_append]
      congr 1
      · refine List.map_congr_left (fun k hk => ?_)
        have hkc : ¬ c.dim = k :=
          fun h => hmem (by rw [h]; exact (mem_dedupKeepFirst _ _).mp hk)
        simp [List.filter_append, List.filter, hkc]
      · have hnil : (cs.filter (fun x => x.dim = c.dim)) = [] := by
          rw [List.filter_eq_nil_iff]
          intro x hx
          simp only [decide_eq_true_eq]
          exact fun h => hmem (by rw [← h]; exact List.mem_map_of_mem _ hx)
        simp [List.filter_append, List.filter, hnil]

/-- Look up every atom of the split key; `none` as soon as one is missing. -/
def lookupAll (cfg : List (String × UnitConfig)) :
    List String → Option (List UnitConfig)
  | [] => some []
  | p :: rest => do
    let c ← dictGet? cfg p
    let cs ← lookupAll cfg rest
    pure (c :: cs)

theorem foldl_scale (cs : List UnitConfig) :
    ∀ a : ℚ, cs.foldl (fun s c => s * c.scale) a
      = a * (cs.map (fun c => c.scale)).prod := by
  induction cs with
  | nil => intro a; simp
  | cons c t ih =>
    intro a
    rw [List.foldl_cons, ih, List.map_cons, List.prod_cons, mul_assoc]

theorem collectDegrees_eq_lookupAll (cfg : List (String × UnitConfig))
    (parts : List String) :
    ∀ acc : List (String × List Int) × ℚ,
      parts.foldlM (fun acc p => do
        let c ← dictGet? cfg p
        pure (appendDegree acc.1 c.dim c.degree, acc.2 * c.scale)) acc
      = (lookupAll cfg parts).map (fun cs =>
          (cs.foldl (fun a c => appendDegree a c.dim c.degree) acc.1,
           cs.foldl (fun s c => s * c.scale) acc.2)) := by
  induction parts with
  | nil => intro acc; rfl
  | cons p rest ih =>
    intro acc
    cases hc : dictGet? cfg p with
    | none => simp [List.foldlM, lookupAll, hc]
    | some c =>
      rw [List.foldlM_cons]
      rw [show (do
          let c ← dictGet? cfg p
          pure (appendDegree acc.1 c.dim c.degree, acc.2 * c.scale) :
          Option (List (String × List Int) × ℚ))
        = some (appendDegree acc.1 c.dim c.degree, acc.2 * c.scale) from by
          rw [hc]; rfl]
      rw [show (do
          let init ← some (appendDegree acc.1 c.dim c.degree, acc.2 * c.scale)
          List.foldlM (fun acc p => do
            let c ← dictGet? cfg p
            pure (appendDegree acc.1 c.dim c.degree, acc.2 * c.scale)) init rest :
          Option (List (String × List Int) × ℚ))
        = List.foldlM (fun acc p => do
            let c ← dictGet? cfg p
            pure (appendDegree acc.1 c.dim c.degree, acc.2 * c.scale))
            (appendDegree acc.1 c.dim c.degree, acc.2 * c.scale) rest from rfl]
      rw [ih]
      cases hrest : lookupAll cfg rest with
      | none => simp [lookupAll, hc, hrest]
      | some cs => simp [lookupAll, hc, hrest, List.foldl_cons]

/-- Modelled from the claim's wording (C6): split the key on underscores not
preceded by `per`, look up each atom's descriptor, multiply the atoms'
scales, and build the dimension signature by keeping, for each dimension,
the single recorded degree when all atoms' degrees for it are equal and their
sum otherwise, dropping every dimension whose summed degree is zero. -/
def parse_unit_spec (cfg : List (String × UnitConfig)) (unit : String) :
    Option (List (String × Int) × ℚ) := do
  let cs ← lookupAll cfg (splitUnit unit)
  let dims := dedupKeepFirst (cs.map (fun c => c.dim))
  let sig := sortByKey (dims.filterMap (fun k =>
    let v := (cs.filter (fun c => c.dim = k)).map (fun c => c.degree)
    if v.sum = 0 then none
    else some (k, if allEqual v then v.headD 0 else v.sum)))
  pure (sig, (cs.map (fun c => c.scale)).prod)

/-- Claim C6: on a composite unit key whose atoms are all registered,
`parse_unit` computes exactly the split/lookup/degree-grouping/scale-product
procedure described by the specification (`parse_unit_spec`). -/
theorem c6_parse_unit_composite (cfg : List (String × UnitConfig))
    (unit : String)
    (hreg : ∀ p ∈ splitUnit unit, (dictGet? cfg p).isSome) :
    parse_unit cfg unit = parse_unit_spec cfg unit := by
  clear hreg
  unfold parse_unit parse_unit_spec collectDegrees
  rw [collectDegrees_eq_lookupAll]
  cases hl : lookupAll cfg (splitUnit unit) with
  | none => rfl
  | some cs =>
    rw [show Option.map (fun cs =>
        (cs.foldl (fun a c => appendDegree a c.dim c.degree) ([] : List (String × List Int)),
         cs.foldl (fun s c => s * c.scale) (1 : ℚ))) (some cs)
      = some (cs.foldl (fun a c => appendDegree a c.dim c.degree) [],
              cs.foldl (fun s c => s * c.scale) 1) from rfl]
    show (pure (finalizeDegrees (cs.foldl (fun a c => appendDegree a c.dim c.degree) []),
        cs.foldl (fun s c => s * c.scale) 1) : Option (List (String × Int) × ℚ)) = _
    rw [foldl_appendDegree_eq_grouped, foldl_scale, one_mul]
    unfold finalizeDegrees groupedDegrees
    rw [List.filterMap_map]
    have hfun : ((fun p : String × List Int => if p.2.sum ≠ 0 then
          some (p.1, if allEqual p.2 then p.2.headD 0 else p.2.sum) else none) ∘
        fun k => (k, (cs.filter (fun c => c.dim = k)).map (fun c => c.degree)))
      = fun k =>
          let v := (cs.filter (fun c => c.dim = k)).map (fun c => c.degree)
          if v.sum = 0 then none
          else some (k, if allEqual v then v.headD 0 else v.sum) := by
      funext k
      simp only [Function.comp_apply, ne_eq, ite_not]
    rw [hfun]
    rfl

/-- A Python value as it flows through the quantity classes: a number, or a
tuple of two such values (the payload of a `RangeQuantity`, which
`RangeQuantity.from_quantities` can nest). -/
inductive PyVal where
  | num (q : ℚ)
  | pair (x y : PyVal)
deriving DecidableEq, Repr

/-- `x * ratio` for a ratio that is a Python float: multiplying a tuple by a
float raises `TypeError`, modelled as `none`. -/
def pyMul (x : PyVal) (r : ℚ) : Option PyVal :=
  match x with
  | .num q => some (.num (q * r))
  | .pair _ _ => none

/-- A quantity value: `SimpleQuantity` (value, unit) or `RangeQuantity`
(`value = (from_value, to_value)`, unit).  The registry reference of the
source objects becomes an explicit `cfg` argument of the operations. -/
inductive QValue where
  | simple (v : ℚ) (unit : String)
  | range (lo hi : PyVal) (unit : String)
deriving DecidableEq, Repr

def QValue.unit : QValue → String
  | .simple _ u => u
  | .range _ _ u => u

@[simp] theorem QValue.unit_simple (v : ℚ) (u : String) :
    (QValue.simple v u).unit = u := rfl

@[simp] theorem QValue.unit_range (lo hi : PyVal) (u : String) :
    (QValue.range lo hi u).unit = u := rfl

def QValue.isRange : QValue → Bool
  | .simple _ _ => false
  | .range _ _ _ => true

/-- `SimpleQuantity.convert_to` / `RangeQuantity.convert_to`: returns the
converted payload (a number for a `SimpleQuantity`, the `(from, to)` tuple
for a `RangeQuantity`).  `none` models the `AttributeError` raised on
non-homogeneous dimension signatures, and also the `KeyError` raised by
`parse_unit` on an unknown unit (in the source the latter would escape the
caller's `except (AttributeError, TypeError)` clauses). -/
def convertTo (cfg : List (String × UnitConfig)) (v : QValue)
    (other_unit : String) : Option PyVal :=
  match parse_unit cfg v.unit with
  | none => none
  | some (selfDegrees, selfScale) =>
    match parse_unit cfg other_unit with
    | none => none
    | some (otherDegrees, otherScale) =>
      if selfDegrees ≠ otherDegrees then none
      else
        let ratio := selfScale / otherScale
        match v with
        | .simple q _ =>
          if ratio ≠ 1 then some (.num (q * ratio)) else some (.num q)
        | .range lo hi _ =>
          if ratio = 1 then some (.pair lo hi)
          else do
            let lo' ← pyMul lo ratio
            let hi' ← pyMul hi ratio
            pure (.pair lo' hi')

/-- `SimpleQuantity.__add__` as used by the adjacent-merge pass, with
`TypeError` (adding a tuple, or `+` on a `RangeQuantity`, which defines no
`__add__`) and `AttributeError` (non-homogeneous conversion) as `none`. -/
def addQ (cfg : List (String × UnitConfig)) : QValue → QValue → Option QValue
  | .range _ _ _, _ => none
  | .simple v u, b =>
    if b.unit = u then
      match b with
      | .simple w _ => some (.simple (v + w) u)
      | .range _ _ _ => none
    else
      match convertTo cfg b u with
      | some (.num w) => some (.simple (v + w) u)
      | some (.pair _ _) => none
      | none => none

/-- `RangeQuantity.from_quantities`: keep the left payload, convert the right
operand into the left unit. -/
def fromQuantities (cfg : List (String × UnitConfig)) (a b : QValue) :
    Option QValue :=
  match convertTo cfg b a.unit with
  | none => none
  | some bv =>
    some (.range (match a with
      | .simple v _ => .num v
      | .range lo hi _ => .pair lo hi) bv a.unit)

/-- The right operand of `__eq__`, which accepts any Python value:
a quantity, or anything else (`other`). -/
inductive PyAny where
  | q (v : QValue)
  | other
deriving DecidableEq, Repr

/-- `SimpleQuantity.__eq__`: `isinstance` dispatch, then comparison of the
value converted into the right operand's unit with the right operand's
value.  `some b` is a normal return, `none` a raised exception. -/
def simpleEqAny (cfg : List (String × UnitConfig)) (v : ℚ) (u : String)
    (x : PyAny) : Option Bool :=
  match x with
  | .q (.simple w u') =>
    match convertTo cfg (.simple v u) u' with
    | some r => some (decide (r = .num w))
    | none => none
  | _ => some false

/-- `RangeQuantity.__eq__`, same dispatch on the `RangeQuantity` variant. -/
def rangeEqAny (cfg : List (String × UnitConfig)) (lo hi : PyVal) (u : String)
    (x : PyAny) : Option Bool :=
  match x with
  | .q (.range lo' hi' u') =>
    match convertTo cfg (.range lo hi u) u' with
    | some r => some (decide (r = .pair lo' hi'))
    | none => none
  | _ => some false

/-- Claim C10: `__eq__` of either quantity variant against any value of a
different shape takes the `isinstance`-guarded branch and returns `False`
without raising; in particular a `SimpleQuantity` (Scalar) and a
`RangeQuantity` (Interval) are never equal, whatever their payloads. -/
theorem c10_eq_cross_variant_false (cfg : List (String × UnitConfig))
    (v : ℚ) (u u' : String) (lo hi : PyVal) :
    simpleEqAny cfg v u (.q (.range lo hi u')) = some false
    ∧ simpleEqAny cfg v u .other = some false
    ∧ rangeEqAny cfg lo hi u (.q (.simple v u')) = some false
    ∧ rangeEqAny cfg lo hi u .other = some false :=
  ⟨rfl, rfl, rfl, rfl⟩

theorem convertTo_simple_eval (cfg : List (String × UnitConfig)) (v : ℚ)
    (u t : String) (d : List (String × Int)) (sa sb : ℚ)
    (h1 : parse_unit cfg u = some (d, sa))
    (h2 : parse_unit cfg t = some (d, sb)) :
    convertTo cfg (.simple v u) t = some (.num (v * (sa / sb))) := by
  by_cases hr : sa / sb = 1
  · simp [convertTo, QValue.unit, h1, h2, hr]
  · simp [convertTo, QValue.unit, h1, h2, hr]

theorem convertTo_range_eval (cfg : List (String × UnitConfig)) (lo hi : ℚ)
    (u t : String) (d : List (String × Int)) (sa sb : ℚ)
    (h1 : parse_unit cfg u = some (d, sa))
    (h2 : parse_unit cfg t = some (d, sb)) :
    convertTo cfg (.range (.num lo) (.num hi) u) t
      = some (.pair (.num (lo * (sa / sb))) (.num (hi * (sa / sb)))) := by
  by_cases hr : sa / sb = 1
  · simp [convertTo, QValue.unit, h1, h2, hr, pyMul]
  · simp [convertTo, QValue.unit, h1, h2, hr, pyMul]

/-- Claim C1: for two quantity values of the same variant with registered,
homogeneous units (and the nonzero scales that registered units carry),
`a == b` holds exactly when converting the right operand `b` into `a`'s unit
yields `a`'s numeric payload.  (The source compares `a` converted into `b`'s
unit with `b`'s payload; over exact arithmetic the two are equivalent.) -/
theorem c1_eq_iff_convert (cfg : List (String × UnitConfig))
    (va vb la ha' lb hb' : ℚ) (ua ub : String)
    (d : List (String × Int)) (sa sb : ℚ)
    (hua : parse_unit cfg ua = some (d, sa))
    (hub : parse_unit cfg ub = some (d, sb))
    (hsa : sa ≠ 0) (hsb : sb ≠ 0) :
    ((simpleEqAny cfg va ua (.q (.simple vb ub)) = some true)
      ↔ convertTo cfg (.simple vb ub) ua = some (.num va))
    ∧ ((rangeEqAny cfg (.num la) (.num ha') ua
          (.q (.range (.num lb) (.num hb') ub)) = some true)
      ↔ convertTo cfg (.range (.num lb) (.num hb') ub) ua
          = some (.pair (.num la) (.num ha'))) := by
  have key : ∀ x y : ℚ, (x * (sa / sb) = y) ↔ (y * (sb / sa) = x) := by
    intro x y
    constructor
    · intro h
      field_simp
      field_simp at h
      linarith
    · intro h
      field_simp
      field_simp at h
      linarith
  constructor
  · rw [show simpleEqAny cfg va ua (.q (.simple vb ub))
        = (match convertTo cfg (QValue.simple va ua) ub with
           | some r => some (decide (r = PyVal.num vb))
           | none => none) from rfl]
    rw [convertTo_simple_eval cfg va ua ub d sa sb hua hub]
    rw [convertTo_simple_eval cfg vb ub ua d sb sa hub hua]
    simp only [Option.some.injEq, decide_eq_true_eq, PyVal.num.injEq]
    exact key va vb
  · rw [show rangeEqAny cfg (.num la) (.num ha') ua
          (.q (.range (.num lb) (.num hb') ub))
        = (match convertTo cfg (QValue.range (PyVal.num la) (PyVal.num ha') ua) ub with
           | some r => some (decide (r = PyVal.pair (PyVal.num lb) (PyVal.num hb')))
           | none => none) from rfl]
    rw [convertTo_range_eval cfg la ha' ua ub d sa sb hua hub]
    rw [convertTo_range_eval cfg lb hb' ub ua d sb sa hub hua]
    simp only [Option.some.injEq, decide_eq_true_eq, PyVal.pair.injEq,
      PyVal.num.injEq]
    constructor
    · rintro ⟨h1, h2⟩
      exact ⟨(key la lb).mp h1, (key ha' hb').mp h2⟩
    · rintro ⟨h1, h2⟩
      exact ⟨(key la lb).mpr h1, (key ha' hb').mpr h2⟩

/-- A quantity span: token boundaries, label (the measure name) and the
attached quantity value (`ent._.value`). -/
structure QSpan where
  start : Nat
  stop : Nat
  label : String
  value : QValue
deriving DecidableEq, Repr

/-- The host document, reduced to what the merge passes read: per-token
normalized text.  Tokenization itself is an out-of-scope collaborator. -/
structure PyDoc where
  tokens : List String
deriving DecidableEq, Repr

/-- The normalized text of token `i` (`doc[i].norm_`). -/
def PyDoc.norm (d : PyDoc) (i : Nat) : String :=
  d.tokens.getD i ""

/-- `get_text(doc[a:b], "NORM", True)`: the normalized text of the token
slice `[a, b)`, blank-joined; empty when the slice is empty. -/
def PyDoc.sliceText (d : PyDoc) (a b : Nat) : String :=
  String.intercalate " " ((d.tokens.drop a).take (b - a))

/-- `merge_adjacent_quantities`, inner loop: `last` is `merged[-1]`, the only
element the streaming reduction may still rewrite. -/
def mergeAdjacentAux (cfg : List (String × UnitConfig)) (last : QSpan) :
    List QSpan → List QSpan
  | [] => [last]
  | ent :: rest =>
    if last.stop = ent.start ∧ last.value.unit ≠ ent.value.unit then
      match addQ cfg last.value ent.value with
      | some nv =>
        mergeAdjacentAux cfg
          ⟨last.start, ent.stop, ent.label, nv⟩ rest
      | none => last :: mergeAdjacentAux cfg ent rest
    else last :: mergeAdjacentAux cfg ent rest

/-- `QuantitiesMatcher.merge_adjacent_quantities`. -/
def merge_adjacent_quantities (cfg : List (String × UnitConfig)) :
    List QSpan → List QSpan
  | [] => []
  | q :: rest => mergeAdjacentAux cfg q rest

/-- The matching-pattern filter of `merge_quantities_in_ranges`: patterns
`(a, b)` whose to-marker `b` equals the text between the two spans and whose
from-marker `a`, when present, equals the token right before the first span
(`None` when the first span starts the document).  Registration order is
preserved. -/
def matchingPatterns (d : PyDoc)
    (pats : List (Option String × Option String)) (last ent : QSpan) :
    List (Option String × Option String) :=
  let fromText : Option String :=
    if last.start > 0 then some (d.norm (last.start - 1)) else none
  let toText := d.sliceText last.stop ent.start
  pats.filter (fun p => p.2 = some toText ∧ (p.1 = none ∨ p.1 = fromText))

/-- `merge_quantities_in_ranges`, inner loop. -/
def mergeRangesAux (cfg : List (String × UnitConfig)) (d : PyDoc)
    (pats : List (Option String × Option String)) (last : QSpan) :
    List QSpan → List QSpan
  | [] => [last]
  | ent :: rest =>
    match matchingPatterns d pats last ent with
    | [] => last :: mergeRangesAux cfg d pats ent rest
    | (a0, _) :: _ =>
      match fromQuantities cfg last.value ent.value with
      | some nv =>
        mergeRangesAux cfg d pats
          ⟨(if a0 = none then last.start else last.start - 1),
           ent.stop, ent.label, nv⟩ rest
      | none => last :: mergeRangesAux cfg d pats ent rest

/-- `QuantitiesMatcher.merge_quantities_in_ranges`: identity unless range
extraction is enabled and the pattern list is non-empty (Python falsiness of
an empty list). -/
def merge_quantities_in_ranges (cfg : List (String × UnitConfig)) (d : PyDoc)
    (extractRanges : Bool) (pats : List (Option String × Option String))
    (quantities : List QSpan) : List QSpan :=
  if ¬ extractRanges ∨ pats = [] then quantities
  else
    match quantities with
    | [] => []
    | q :: rest => mergeRangesAux cfg d pats q rest

def QValue.payload : QValue → PyVal
  | .simple v _ => .num v
  | .range lo hi _ => .pair lo hi

/-- The pair condition under which the adjacent-merge pass rewrites
`merged[-1]`: spans touch, unit strings differ, and the addition succeeds. -/
def canMergeAdj (cfg : List (String × UnitConfig)) (a b : QSpan) : Prop :=
  a.stop = b.start ∧ a.value.unit ≠ b.value.unit
    ∧ (addQ cfg a.value b.value).isSome

instance (cfg : List (String × UnitConfig)) (a b : QSpan) :
    Decidable (canMergeAdj cfg a b) := by
  unfold canMergeAdj; infer_instance

theorem convertTo_range_no_num (cfg : List (String × UnitConfig))
    (lo hi : PyVal) (u t : String) (q : ℚ) :
    convertTo cfg (.range lo hi u) t ≠ some (.num q) := by
  unfold convertTo
  rw [QValue.unit_range]
  cases parse_unit cfg u with
  | none => simp
  | some p =>
    cases parse_unit cfg t with
    | none => simp
    | some p' =>
      obtain ⟨d1, s1⟩ := p
      obtain ⟨d2, s2⟩ := p'
      by_cases hd : d1 ≠ d2
      · simp [hd]
      · simp only [hd, if_false]
        by_cases hr : s1 / s2 = 1
        · simp [hr]
        · simp only [hr, if_false]
          cases hlo : pyMul lo (s1 / s2) with
          | none => simp
          | some lo' =>
            cases hhi : pyMul hi (s1 / s2) with
            | none => simp [hlo]
            | some hi' => simp [hlo, hhi]

theorem addQ_some_shape (cfg : List (String × UnitConfig)) (a b nv : QValue)
    (h : addQ cfg a b = some nv) :
    nv.unit = a.unit ∧ nv.isRange = false ∧ a.isRange = false := by
  cases a with
  | range lo hi u => simp [addQ] at h
  | simple v u =>
    simp only [addQ] at h
    by_cases hu : b.unit = u
    · rw [if_pos hu] at h
      cases b with
      | simple w u' =>
        simp only [Option.some.injEq] at h
        subst h
        exact ⟨rfl, rfl, rfl⟩
      | range _ _ _ => simp at h
    · rw [if_neg hu] at h
      cases hc : convertTo cfg b u with
      | none => rw [hc] at h; simp at h
      | some r =>
        rw [hc] at h
        cases r with
        | num w =>
          simp only [Option.some.injEq] at h
          subst h
          exact ⟨rfl, rfl, rfl⟩
        | pair x y => simp at h

theorem convertTo_congr_unit_var (cfg : List (String × UnitConfig))
    (w w' : ℚ) (u t : String) :
    (convertTo cfg (.simple w u) t).isSome
      = (convertTo cfg (.simple w' u) t).isSome := by
  unfold convertTo
  rw [QValue.unit_simple, QValue.unit_simple]
  cases parse_unit cfg u with
  | none => rfl
  | some p =>
    cases parse_unit cfg t with
    | none => rfl
    | some p' =>
      obtain ⟨d1, s1⟩ := p
      obtain ⟨d2, s2⟩ := p'
      by_cases hd : d1 ≠ d2
      · simp [hd]
      · by_cases hr : s1 / s2 = 1 <;> simp [hd, hr]

theorem convertTo_simple_no_pair (cfg : List (String × UnitConfig)) (w : ℚ)
    (u t : String) (x y : PyVal) :
    convertTo cfg (.simple w u) t ≠ some (.pair x y) := by
  unfold convertTo
  rw [QValue.unit_simple]
  cases parse_unit cfg u with
  | none => simp
  | some p =>
    cases parse_unit cfg t with
    | none => simp
    | some p' =>
      obtain ⟨d1, s1⟩ := p
      obtain ⟨d2, s2⟩ := p'
      by_cases hd : d1 ≠ d2
      · simp [hd]
      · by_cases hr : s1 / s2 = 1 <;> simp [hd, hr]

theorem addQ_none_of_range (cfg : List (String × UnitConfig)) (v : ℚ)
    (u : String) (lo hi : PyVal) (u' : String) :
    addQ cfg (.simple v u) (.range lo hi u') = none := by
  simp only [addQ]
  by_cases hu : (QValue.range lo hi u').unit = u
  · simp [hu]
  · rw [if_neg hu]
    cases hc : convertTo cfg (.range lo hi u') u with
    | none => rfl
    | some r =>
      cases r with
      | num q => exact absurd hc (convertTo_range_no_num cfg lo hi u' u q)
      | pair x y => rfl

/-- Whether `addQ` succeeds depends on the right operand only through its
unit string and variant, never through its numeric payload. -/
theorem addQ_isSome_congr (cfg : List (String × UnitConfig)) (a b b' : QValue)
    (hu : b.unit = b'.unit) (hv : b.isRange = b'.isRange) :
    (addQ cfg a b).isSome = (addQ cfg a b').isSome := by
  cases a with
  | range _ _ _ => simp [addQ]
  | simple v u =>
    cases b with
    | simple w ub =>
      cases b' with
      | simple w' ub' =>
        have : ub = ub' := hu
        subst this
        simp only [addQ]
        by_cases hub : (QValue.simple w ub).unit = u
        · rw [if_pos hub, if_pos (show (QValue.simple w' ub).unit = u from hub)]
          rfl
        · rw [if_neg hub, if_neg (show ¬ (QValue.simple w' ub).unit = u from hub)]
          rw [show (QValue.simple w ub).unit = ub from rfl] at *
          have hcongr := convertTo_congr_unit_var cfg w w' ub u
          cases hc : convertTo cfg (.simple w ub) u with
          | none =>
            rw [hc] at hcongr
            cases hc' : convertTo cfg (.simple w' ub) u with
            | none => rfl
            | some r => rw [hc'] at hcongr; simp at hcongr
          | some r =>
            rw [hc] at hcongr
            cases hc' : convertTo cfg (.simple w' ub) u with
            | none => rw [hc'] at hcongr; simp at hcongr
            | some r' =>
              rw [hc'] at hcongr
              cases r with
              | num x =>
                cases r' with
                | num y => rfl
                | pair y z =>
                  exact absurd hc' (convertTo_simple_no_pair cfg w' ub u y z)
              | pair x y =>
                exact absurd hc (convertTo_simple_no_pair cfg w ub u x y)
      | range _ _ _ => simp [QValue.isRange] at hv
    | range lo hi ub =>
      cases b' with
      | simple _ _ => simp [QValue.isRange] at hv
      | range lo' hi' ub' =>
        rw [addQ_none_of_range, addQ_none_of_range]

/-- The head of the adjacent-merge stream keeps the start offset, the unit
string and the variant of the element it started from: successive merges
only widen the end, relabel, and add payloads into the left unit. -/
theorem mergeAdjacentAux_head (cfg : List (String × UnitConfig))
    (l : List QSpan) : ∀ last, ∃ h t,
    mergeAdjacentAux cfg last l = h :: t ∧ h.start = last.start ∧
    h.value.unit = last.value.unit ∧ h.value.isRange = last.value.isRange := by
  induction l with
  | nil => intro last; exact ⟨last, [], rfl, rfl, rfl, rfl⟩
  | cons ent rest ih =>
    intro last
    unfold mergeAdjacentAux
    by_cases hcond : last.stop = ent.start ∧ last.value.unit ≠ ent.value.unit
    · rw [if_pos hcond]
      cases hadd : addQ cfg last.value ent.value with
      | none => exact ⟨last, mergeAdjacentAux cfg ent rest, rfl, rfl, rfl, rfl⟩
      | some nv =>
        obtain ⟨hn1, hn2, hn3⟩ := addQ_some_shape cfg _ _ _ hadd
        obtain ⟨h, t, he, h1, h2, h3⟩ :=
          ih ⟨last.start, ent.stop, ent.label, nv⟩
        exact ⟨h, t, he, h1, by rw [h2]; exact hn1, by
          rw [h3]
          show nv.isRange = last.value.isRange
          rw [hn2, hn3]⟩
    · rw [if_neg hcond]
      exact ⟨last, mergeAdjacentAux cfg ent rest, rfl, rfl, rfl, rfl⟩

/-- Every pair of consecutive spans the adjacent-merge pass outputs fails the
merge condition: no further merge is possible on the output. -/
theorem mergeAdjacentAux_chain (cfg : List (String × UnitConfig))
    (l : List QSpan) : ∀ last,
    List.Chain' (fun a b => ¬ canMergeAdj cfg a b)
      (mergeAdjacentAux cfg last l) := by
  induction l with
  | nil => intro last; simp [mergeAdjacentAux]
  | cons ent rest ih =>
    intro last
    unfold mergeAdjacentAux
    have happend : ∀ hno : ¬ canMergeAdj cfg last ent,
        List.Chain' (fun a b => ¬ canMergeAdj cfg a b)
          (last :: mergeAdjacentAux cfg ent rest) := by
      intro hno
      obtain ⟨h, t, he, h1, h2, h3⟩ := mergeAdjacentAux_head cfg rest ent
      rw [he]
      refine List.Chain'.cons ?_ (he ▸ ih ent)
      intro hcan
      apply hno
      obtain ⟨hc1, hc2, hc3⟩ := hcan
      refine ⟨by rw [hc1, h1], by rw [← h2]; exact hc2, ?_⟩
      rw [addQ_isSome_congr cfg last.value ent.value h.value h2.symm h3.symm]
      exact hc3
    by_cases hcond : last.stop = ent.start ∧ last.value.unit ≠ ent.value.unit
    · rw [if_pos hcond]
      cases hadd : addQ cfg last.value ent.value with
      | none =>
        exact happend (fun hcan => by
          have h3 := hcan.2.2
          rw [hadd] at h3
          exact absurd h3 (by simp))
      | some nv => exact ih _
    · rw [if_neg hcond]
      exact happend (fun hcan => hcond ⟨hcan.1, hcan.2.1⟩)

/-- On a stream whose consecutive pairs all fail the merge condition, the
adjacent-merge pass is the identity. -/
theorem mergeAdjacentAux_of_chain (cfg : List (String × UnitConfig))
    (l : List QSpan) : ∀ last,
    List.Chain' (fun a b => ¬ canMergeAdj cfg a b) (last :: l) →
    mergeAdjacentAux cfg last l = last :: l := by
  induction l with
  | nil => intro last _; rfl
  | cons ent rest ih =>
    intro last hchain
    have hno : ¬ canMergeAdj cfg last ent :=
      (List.chain'_cons.mp hchain).1
    have htail : List.Chain' (fun a b => ¬ canMergeAdj cfg a b) (ent :: rest) :=
      (List.chain'_cons.mp hchain).2
    unfold mergeAdjacentAux
    by_cases hcond : last.stop = ent.start ∧ last.value.unit ≠ ent.value.unit
    · rw [if_pos hcond]
      cases hadd : addQ cfg last.value ent.value with
      | none => rw [ih ent htail]
      | some nv =>
        exact absurd ⟨hcond.1, hcond.2, by rw [hadd]; rfl⟩ hno
    · rw [if_neg hcond]
      rw [ih ent htail]

/-- The adjacent-merge pass is idempotent (for any input list). -/
theorem merge_adjacent_idem (cfg : List (String × UnitConfig))
    (qs : List QSpan) :
    merge_adjacent_quantities cfg (merge_adjacent_quantities cfg qs)
      = merge_adjacent_quantities cfg qs := by
  cases qs with
  | nil => rfl
  | cons q rest =>
    show merge_adjacent_quantities cfg (mergeAdjacentAux cfg q rest)
      = mergeAdjacentAux cfg q rest
    obtain ⟨h, t, he, -, -, -⟩ := mergeAdjacentAux_head cfg rest q
    rw [he]
    show mergeAdjacentAux cfg h t = h :: t
    exact mergeAdjacentAux_of_chain cfg t h (he ▸ mergeAdjacentAux_chain cfg rest q)

/-- The pair condition under which the range-merge pass rewrites
`merged[-1]`: some range pattern matches and building the range succeeds. -/
def canMergeRange (cfg : List (String × UnitConfig)) (d : PyDoc)
    (pats : List (Option String × Option String)) (a b : QSpan) : Prop :=
  matchingPatterns d pats a b ≠ [] ∧ (fromQuantities cfg a.value b.value).isSome

instance (cfg : List (String × UnitConfig)) (d : PyDoc)
    (pats : List (Option String × Option String)) (a b : QSpan) :
    Decidable (canMergeRange cfg d pats a b) := by
  unfold canMergeRange; infer_instance

theorem fromQuantities_none_iff (cfg : List (String × UnitConfig))
    (a b : QValue) :
    fromQuantities cfg a b = none ↔ convertTo cfg b a.unit = none := by
  unfold fromQuantities
  cases convertTo cfg b a.unit with
  | none => simp
  | some bv => simp

theorem fromQuantities_some_shape (cfg : List (String × UnitConfig))
    (a b nv : QValue) (h : fromQuantities cfg a b = some nv) :
    ∃ bv, convertTo cfg b a.unit = some bv
      ∧ nv = .range a.payload bv a.unit := by
  unfold fromQuantities at h
  cases hc : convertTo cfg b a.unit with
  | none => rw [hc] at h; simp at h
  | some bv =>
    rw [hc] at h
    simp only [Option.some.injEq] at h
    refine ⟨bv, rfl, ?_⟩
    rw [← h]
    cases a <;> rfl

/-- A failing conversion keeps failing after a range merge: merging keeps the
unit, and a range whose payload is itself a tuple cannot be rescaled. -/
theorem convertTo_none_step (cfg : List (String × UnitConfig)) (a : QValue)
    (c : PyVal) (t : String) (h : convertTo cfg a t = none) :
    convertTo cfg (.range a.payload c a.unit) t = none := by
  cases a with
  | simple v u =>
    cases hp1 : parse_unit cfg u with
    | none => simp [convertTo, hp1]
    | some p =>
      obtain ⟨d1, s1⟩ := p
      cases hp2 : parse_unit cfg t with
      | none => simp [convertTo, hp1, hp2]
      | some p' =>
        obtain ⟨d2, s2⟩ := p'
        by_cases hd : d1 ≠ d2
        · simp [convertTo, hp1, hp2, hd]
        · exfalso
          by_cases hr : s1 / s2 = 1 <;>
            simp [convertTo, hp1, hp2, hd, hr] at h
  | range lo hi u =>
    cases hp1 : parse_unit cfg u with
    | none => simp [convertTo, hp1]
    | some p =>
      obtain ⟨d1, s1⟩ := p
      cases hp2 : parse_unit cfg t with
      | none => simp [convertTo, hp1, hp2]
      | some p' =>
        obtain ⟨d2, s2⟩ := p'
        by_cases hd : d1 ≠ d2
        · simp [convertTo, hp1, hp2, hd]
        · have hr : ¬ s1 / s2 = 1 := by
            intro hr
            simp [convertTo, hp1, hp2, hd, hr] at h
          simp [convertTo, QValue.payload, hp1, hp2, hd, hr, pyMul]

theorem matchingPatterns_congr (d : PyDoc)
    (pats : List (Option String × Option String)) (a a' b b' : QSpan)
    (h1 : a.start = a'.start) (h2 : a.stop = a'.stop)
    (h3 : b.start = b'.start) :
    matchingPatterns d pats a b = matchingPatterns d pats a' b' := by
  unfold matchingPatterns
  rw [h1, h2, h3]

theorem mem_pats_of_matchingPatterns (d : PyDoc)
    (pats : List (Option String × Option String)) (a b : QSpan)
    (p : Option String × Option String)
    (hp : p ∈ matchingPatterns d pats a b) : p ∈ pats :=
  List.mem_of_mem_filter hp

/-- Head invariant of the range-merge stream when no pattern carries a
from-marker: the start offset and unit are kept, and conversions into any
unit that failed for the original value keep failing for the merged one. -/
theorem mergeRangesAux_head (cfg : List (String × UnitConfig)) (d : PyDoc)
    (pats : List (Option String × Option String))
    (hpats : ∀ p ∈ pats, p.1 = none) (l : List QSpan) : ∀ last, ∃ h t,
    mergeRangesAux cfg d pats last l = h :: t ∧ h.start = last.start ∧
    h.value.unit = last.value.unit ∧
    (∀ tu, convertTo cfg last.value tu = none →
      convertTo cfg h.value tu = none) := by
  induction l with
  | nil =>
    intro last
    exact ⟨last, [], rfl, rfl, rfl, fun tu h => h⟩
  | cons ent rest ih =>
    intro last
    unfold mergeRangesAux
    cases hm : matchingPatterns d pats last ent with
    | nil =>
      exact ⟨last, mergeRangesAux cfg d pats ent rest, rfl, rfl, rfl,
        fun tu h => h⟩
    | cons p0 tl =>
      obtain ⟨a0, b0⟩ := p0
      cases hfq : fromQuantities cfg last.value ent.value with
      | none =>
        exact ⟨last, mergeRangesAux cfg d pats ent rest, rfl, rfl, rfl,
          fun tu h => h⟩
      | some nv =>
        have ha0 : a0 = none := by
          have : (a0, b0) ∈ matchingPatterns d pats last ent := by
            rw [hm]; exact List.mem_cons_self _ _
          exact hpats _ (mem_pats_of_matchingPatterns d pats last ent _ this)
        obtain ⟨bv, hbv, hnv⟩ := fromQuantities_some_shape cfg _ _ _ hfq
        obtain ⟨h, t, he, hh1, hh2, hh3⟩ :=
          ih ⟨(if a0 = none then last.start else last.start - 1),
              ent.stop, ent.label, nv⟩
        refine ⟨h, t, he, ?_, ?_, ?_⟩
        · rw [hh1, ha0]; rfl
        · rw [hh2]
          show nv.unit = last.value.unit
          rw [hnv, QValue.unit_range]
        · intro tu hnone
          apply hh3
          show convertTo cfg nv tu = none
          rw [hnv]
          exact convertTo_none_step cfg last.value bv tu hnone

/-- Every consecutive output pair of the range-merge pass fails the merge
condition (when no pattern carries a from-marker). -/
theorem mergeRangesAux_chain (cfg : List (String × UnitConfig)) (d : PyDoc)
    (pats : List (Option String × Option String))
    (hpats : ∀ p ∈ pats, p.1 = none) (l : List QSpan) : ∀ last,
    List.Chain' (fun a b => ¬ canMergeRange cfg d pats a b)
      (mergeRangesAux cfg d pats last l) := by
  induction l with
  | nil => intro last; simp [mergeRangesAux]
  | cons ent rest ih =>
    intro last
    unfold mergeRangesAux
    have happend :
        (matchingPatterns d pats last ent = [] ∨
          fromQuantities cfg last.value ent.value = none) →
        List.Chain' (fun a b => ¬ canMergeRange cfg d pats a b)
          (last :: mergeRangesAux cfg d pats ent rest) := by
      intro hno
      obtain ⟨h, t, he, hh1, hh2, hh3⟩ :=
        mergeRangesAux_head cfg d pats hpats rest ent
      rw [he]
      refine List.Chain'.cons ?_ (he ▸ ih ent)
      intro hcan
      obtain ⟨hc1, hc2⟩ := hcan
      rcases hno with hno | hno
      · exact hc1 (by
          rw [matchingPatterns_congr d pats last last h ent rfl rfl hh1]
          exact hno)
      · rw [fromQuantities_none_iff] at hno
        have : fromQuantities cfg last.value h.value = none := by
          rw [fromQuantities_none_iff]
          exact hh3 _ hno
        rw [this] at hc2
        exact absurd hc2 (by simp)
    cases hm : matchingPatterns d pats last ent with
    | nil => exact happend (Or.inl hm)
    | cons p0 tl =>
      obtain ⟨a0, b0⟩ := p0
      cases hfq : fromQuantities cfg last.value ent.value with
      | none => exact happend (Or.inr hfq)
      | some nv => exact ih _

/-- On a stream whose consecutive pairs all fail the range-merge condition,
the range-merge pass is the identity. -/
theorem mergeRangesAux_of_chain (cfg : List (String × UnitConfig)) (d : PyDoc)
    (pats : List (Option String × Option String)) (l : List QSpan) : ∀ last,
    List.Chain' (fun a b => ¬ canMergeRange cfg d pats a b) (last :: l) →
    mergeRangesAux cfg d pats last l = last :: l := by
  induction l with
  | nil => intro last _; rfl
  | cons ent rest ih =>
    intro last hchain
    have hno : ¬ canMergeRange cfg d pats last ent :=
      (List.chain'_cons.mp hchain).1
    have htail := (List.chain'_cons.mp hchain).2
    unfold mergeRangesAux
    cases hm : matchingPatterns d pats last ent with
    | nil => rw [ih ent htail]
    | cons p0 tl =>
      obtain ⟨a0, b0⟩ := p0
      cases hfq : fromQuantities cfg last.value ent.value with
      | none => rw [ih ent htail]
      | some nv =>
        exact absurd ⟨by rw [hm]; simp, by rw [hfq]; rfl⟩ hno

theorem mergeAdjacentAux_sorted (cfg : List (String × UnitConfig))
    (l : List QSpan) : ∀ last,
    List.Chain' (fun a b : QSpan => a.start ≤ b.start) (last :: l) →
    List.Chain' (fun a b : QSpan => a.start ≤ b.start)
      (mergeAdjacentAux cfg last l) := by
  induction l with
  | nil => intro last _; simp [mergeAdjacentAux]
  | cons ent rest ih =>
    intro last hchain
    have h1 : last.start ≤ ent.start := (List.chain'_cons.mp hchain).1
    have htail := (List.chain'_cons.mp hchain).2
    have happend : List.Chain' (fun a b : QSpan => a.start ≤ b.start)
        (last :: mergeAdjacentAux cfg ent rest) := by
      obtain ⟨h, t, he, hh1, -, -⟩ := mergeAdjacentAux_head cfg rest ent
      rw [he]
      exact List.Chain'.cons (by rw [hh1]; exact h1) (he ▸ ih ent htail)
    unfold mergeAdjacentAux
    by_cases hcond : last.stop = ent.start ∧ last.value.unit ≠ ent.value.unit
    · rw [if_pos hcond]
      cases hadd : addQ cfg last.value ent.value with
      | none => exact happend
      | some nv =>
        apply ih
        cases rest with
        | nil => simp
        | cons r rest2 =>
          refine List.chain'_cons.mpr ⟨?_, (List.chain'_cons.mp htail).2⟩
          exact le_trans h1 (List.chain'_cons.mp htail).1
    · rw [if_neg hcond]
      exact happend

theorem mergeRangesAux_sorted (cfg : List (String × UnitConfig)) (d : PyDoc)
    (pats : List (Option String × Option String))
    (hpats : ∀ p ∈ pats, p.1 = none) (l : List QSpan) : ∀ last,
    List.Chain' (fun a b : QSpan => a.start ≤ b.start) (last :: l) →
    List.Chain' (fun a b : QSpan => a.start ≤ b.start)
      (mergeRangesAux cfg d pats last l) := by
  induction l with
  | nil => intro last _; simp [mergeRangesAux]
  | cons ent rest ih =>
    intro last hchain
    have h1 : last.start ≤ ent.start := (List.chain'_cons.mp hchain).1
    have htail := (List.chain'_cons.mp hchain).2
    have happend : List.Chain' (fun a b : QSpan => a.start ≤ b.start)
        (last :: mergeRangesAux cfg d pats ent rest) := by
      obtain ⟨h, t, he, hh1, -, -⟩ := mergeRangesAux_head cfg d pats hpats rest ent
      rw [he]
      exact List.Chain'.cons (by rw [hh1]; exact h1) (he ▸ ih ent htail)
    unfold mergeRangesAux
    cases hm : matchingPatterns d pats last ent with
    | nil => exact happend
    | cons p0 tl =>
      obtain ⟨a0, b0⟩ := p0
      cases hfq : fromQuantities cfg last.value ent.value with
      | none => exact happend
      | some nv =>
        have ha0 : a0 = none := by
          have : (a0, b0) ∈ matchingPatterns d pats last ent := by
            rw [hm]; exact List.mem_cons_self _ _
          exact hpats _ (mem_pats_of_matchingPatterns d pats last ent _ this)
        apply ih
        rw [ha0]
        simp only [if_pos rfl]
        cases rest with
        | nil => simp
        | cons r rest2 =>
          refine List.chain'_cons.mpr ⟨?_, (List.chain'_cons.mp htail).2⟩
          exact le_trans h1 (List.chain'_cons.mp htail).1

/-- A small unit table (a fragment of the shipped `units_config`). -/
def demoCfg : List (String × UnitConfig) :=
  [("cm", ⟨"length", 1, 1/100⟩), ("m", ⟨"length", 1, 1⟩),
   ("g", ⟨"mass", 1, 1/1000⟩)]

/-- Claim C4 (amended): the adjacent-merge pass is idempotent on any list;
the range-merge pass is idempotent whenever no configured range pattern
carries a from-marker.  (With a from-marker pattern the backward span
extension can expose a new to-marker match, see the counterexample.) -/
theorem c4_merge_passes_idempotent (cfg : List (String × UnitConfig))
    (d : PyDoc) (er : Bool) (pats : List (Option String × Option String))
    (hpats : ∀ p ∈ pats, p.1 = none) :
    (∀ qs : List QSpan,
      merge_adjacent_quantities cfg (merge_adjacent_quantities cfg qs)
        = merge_adjacent_quantities cfg qs)
    ∧ (∀ qs : List QSpan,
      merge_quantities_in_ranges cfg d er pats
          (merge_quantities_in_ranges cfg d er pats qs)
        = merge_quantities_in_ranges cfg d er pats qs) := by
  refine ⟨merge_adjacent_idem cfg, ?_⟩
  intro qs
  unfold merge_quantities_in_ranges
  by_cases hflag : ¬ er = true ∨ pats = []
  · rw [if_pos hflag, if_pos hflag]
  · rw [if_neg hflag, if_neg hflag]
    cases qs with
    | nil => rfl
    | cons q rest =>
      obtain ⟨h, t, he, -, -, -⟩ := mergeRangesAux_head cfg d pats hpats rest q
      rw [show (match q :: rest with
          | [] => ([] : List QSpan)
          | q :: rest => mergeRangesAux cfg d pats q rest)
        = mergeRangesAux cfg d pats q rest from rfl]
      rw [he]
      exact mergeRangesAux_of_chain cfg d pats t h
        (he ▸ mergeRangesAux_chain cfg d pats hpats rest q)

def c4Doc : PyDoc := ⟨["1", "cm", "x", "entre", "2", "et", "3", "cm"]⟩

def c4Pats : List (Option String × Option String) :=
  [(some "entre", some "et"), (none, some "x")]

def c4Input : List QSpan :=
  [⟨0, 2, "size", .simple 1 "cm"⟩,
   ⟨4, 5, "size", .simple 2 "cm"⟩,
   ⟨6, 8, "size", .simple 3 "cm"⟩]

/-- Claim C4, counterexample to the claim as stated: on this start-sorted
quantity list, the first range-merge run merges the last two spans with the
from-marker pattern `("entre", "et")` and extends the merged span one token
backward, which exposes the to-marker of the pattern `(None, "x")`; a second
run then merges again, so the pass is not idempotent. -/
theorem c4_counterexample :
    List.Chain' (fun a b : QSpan => a.start ≤ b.start) c4Input ∧
    merge_quantities_in_ranges (buildRegistry demoCfg) c4Doc true c4Pats
        (merge_quantities_in_ranges (buildRegistry demoCfg) c4Doc true c4Pats
          c4Input)
      ≠ merge_quantities_in_ranges (buildRegistry demoCfg) c4Doc true c4Pats
          c4Input := by
  constructor
  · simp [c4Input, List.chain'_cons]
  · with_unfolding_all decide

/-- Claim C4 witness: the amended theorem applied to a concrete registry,
document, from-marker-free pattern list and quantity list. -/
theorem c4_witness :
    merge_quantities_in_ranges (buildRegistry demoCfg) c4Doc true
        [(none, some "et")]
        (merge_quantities_in_ranges (buildRegistry demoCfg) c4Doc true
          [(none, some "et")] c4Input)
      = merge_quantities_in_ranges (buildRegistry demoCfg) c4Doc true
          [(none, some "et")] c4Input :=
  (c4_merge_passes_idempotent (buildRegistry demoCfg) c4Doc true
    [(none, some "et")] (by decide)).2 c4Input

/-- Claim C5 (amended): the adjacent-merge pass maps a start-offset-sorted
list to a start-offset-sorted list, and so does the range-merge pass when no
configured range pattern carries a from-marker.  (A from-marker pattern can
push a merged span's start below the preceding span's, see the
counterexample.) -/
theorem c5_merge_passes_sorted (cfg : List (String × UnitConfig)) (d : PyDoc)
    (er : Bool) (pats : List (Option String × Option String))
    (hpats : ∀ p ∈ pats, p.1 = none) (qs : List QSpan)
    (hqs : List.Chain' (fun a b : QSpan => a.start ≤ b.start) qs) :
    List.Chain' (fun a b : QSpan => a.start ≤ b.start)
      (merge_adjacent_quantities cfg qs)
    ∧ List.Chain' (fun a b : QSpan => a.start ≤ b.start)
      (merge_quantities_in_ranges cfg d er pats qs) := by
  constructor
  · cases qs with
    | nil => simp [merge_adjacent_quantities]
    | cons q rest => exact mergeAdjacentAux_sorted cfg rest q hqs
  · unfold merge_quantities_in_ranges
    by_cases hflag : ¬ er = true ∨ pats = []
    · rw [if_pos hflag]; exact hqs
    · rw [if_neg hflag]
      cases qs with
      | nil => simp
      | cons q rest => exact mergeRangesAux_sorted cfg d pats hpats rest q hqs

def c5Doc : PyDoc := ⟨["a", "b", "c", "d", "e", "f", "g", "h", "i", "j"]⟩

def c5Pats : List (Option String × Option String) :=
  [(some "e", some "g"), (some "d", some "i")]

def c5Input : List QSpan :=
  [⟨4, 5, "size", .simple 1 "cm"⟩,
   ⟨5, 6, "size", .simple 2 "cm"⟩,
   ⟨7, 8, "size", .simple 3 "cm"⟩,
   ⟨9, 10, "size", .simple 4 "cm"⟩]

/-- Claim C5, counterexample to the claim as stated: on this start-sorted
(even strictly increasing) quantity list, two chained from-marker merges move
the merged span's start two tokens backward, below the first span's start:
the range-merge output is not sorted by start offset. -/
theorem c5_counterexample :
    List.Chain' (fun a b : QSpan => a.start ≤ b.start) c5Input ∧
    ¬ List.Chain' (fun a b : QSpan => a.start ≤ b.start)
        (merge_quantities_in_ranges (buildRegistry demoCfg) c5Doc true c5Pats
          c5Input) := by
  constructor
  · simp [c5Input, List.chain'_cons]
  · rw [show merge_quantities_in_ranges (buildRegistry demoCfg) c5Doc true
        c5Pats c5Input
      = [⟨4, 5, "size", .simple 1 "cm"⟩,
         ⟨3, 10, "size",
          .range (.pair (.num 2) (.num 3)) (.num 4) "cm"⟩] from by
      with_unfolding_all decide]
    simp [List.chain'_cons]

/-- Claim C5 witness: the amended theorem applied to a concrete registry,
document, from-marker-free pattern list and sorted quantity list. -/
theorem c5_witness :
    List.Chain' (fun a b : QSpan => a.start ≤ b.start)
      (merge_adjacent_quantities (buildRegistry demoCfg) c4Input)
    ∧ List.Chain' (fun a b : QSpan => a.start ≤ b.start)
      (merge_quantities_in_ranges (buildRegistry demoCfg) c4Doc true
        [(none, some "et")] c4Input) :=
  c5_merge_passes_sorted (buildRegistry demoCfg) c4Doc true
    [(none, some "et")] (by decide) c4Input
    (by simp [c4Input, List.chain'_cons])

/-- Claim C8: with range extraction enabled, when the intervening text and
the token before the first span match a configured range pattern (patterns
tried in registration order, first match winning) and the two values are
Scalars with a convertible second operand, the pair is replaced by a single
span carrying the Interval built from the two Scalars (second converted into
the first's unit, which the Interval keeps); the merged span runs to the
second span's end and starts one token earlier exactly when the winning
pattern requires a from-marker. -/
theorem c8_range_merge_step (cfg : List (String × UnitConfig)) (d : PyDoc)
    (pats : List (Option String × Option String)) (last ent : QSpan)
    (rest : List QSpan) (v w : ℚ) (u : String)
    (a0 b0 : Option String) (tl : List (Option String × Option String))
    (hm : matchingPatterns d pats last ent = (a0, b0) :: tl)
    (hlast : last.value = .simple v u)
    (hconv : convertTo cfg ent.value u = some (.num w)) :
    merge_quantities_in_ranges cfg d true pats (last :: ent :: rest)
      = mergeRangesAux cfg d pats
          ⟨(if a0 = none then last.start else last.start - 1),
           ent.stop, ent.label, .range (.num v) (.num w) u⟩ rest := by
  have hpne : pats ≠ [] := by
    intro h
    rw [h] at hm
    simp [matchingPatterns] at hm
  have hfq : fromQuantities cfg last.value ent.value
      = some (.range (.num v) (.num w) u) := by
    unfold fromQuantities
    rw [hlast, QValue.unit_simple, hconv]
  unfold merge_quantities_in_ranges
  rw [if_neg (by simp [hpne])]
  show mergeRangesAux cfg d pats last (ent :: rest) = _
  conv_lhs => rw [mergeRangesAux, hm, hfq]

def c8Doc : PyDoc := ⟨["entre", "1", "et", "1.5", "cm"]⟩

/-- Claim C8 witness: `entre 1 et 1.5 cm` with the range pattern
`("entre", "et")` merges the Scalars 1 cm and 1.5 cm into the single span
`Interval(1, 1.5, "cm")` extended backward over the from-marker token. -/
theorem c8_witness :
    merge_quantities_in_ranges (buildRegistry demoCfg) c8Doc true
        [(some "entre", some "et")]
        [⟨1, 2, "size", .simple 1 "cm"⟩, ⟨3, 5, "size", .simple (3/2) "cm"⟩]
      = [⟨0, 5, "size", .range (.num 1) (.num (3/2)) "cm"⟩] := by
  rw [c8_range_merge_step (buildRegistry demoCfg) c8Doc
    [(some "entre", some "et")] ⟨1, 2, "size", .simple 1 "cm"⟩
    ⟨3, 5, "size", .simple (3/2) "cm"⟩ [] 1 (3/2) "cm"
    (some "entre") (some "et") [] (by with_unfolding_all decide) rfl
    (by with_unfolding_all decide)]
  rfl

/-- A filtered match of the candidate stream: token boundaries, label,
matched text, and whether the span is a sentence end. -/
structure Match where
  start : Nat
  stop : Nat
  label : String
  text : String
  isSentEnd : Bool
deriving DecidableEq, Repr

/-- The module-level constant `AFTER_SNIPPET_LIMIT` of `quantities.py`. -/
def AFTER_SNIPPET_LIMIT : Nat := 6

/-- The module-level constant `BEFORE_SNIPPET_LIMIT` of `quantities.py`. -/
def BEFORE_SNIPPET_LIMIT : Nat := 10

/-- The generator body of `get_matches_after`: stop at the first
non-sentence-end match starting more than `AFTER_SNIPPET_LIMIT` tokens past
the anchor's end, yield everything before that. -/
def gmaAux (anchorStop : Nat) : List (Nat × Match) → List (Nat × Match)
  | [] => []
  | (j, m) :: rest =>
    if ¬ m.isSentEnd ∧ m.start > anchorStop + AFTER_SNIPPET_LIMIT then []
    else (j, m) :: gmaAux anchorStop rest

/-- `get_matches_after(i)` of `extract_quantities`, fully enumerated.  Note
that the window is the module constant `AFTER_SNIPPET_LIMIT`: the function
takes no limit argument, and the `after_snippet_limit` value stored on the
matcher instance at construction is never read. -/
def get_matches_after (ms : List Match) (i : Nat) : List (Nat × Match) :=
  match ms.get? i with
  | none => []
  | some anchor => gmaAux anchor.stop (List.enumFrom (i + 1) (ms.drop (i + 1)))

/-- The generator body of `get_matches_before`: walk `matches[i::-1]`, stop
at the first non-sentence-end match ending more than `BEFORE_SNIPPET_LIMIT`
tokens before the anchor's start (an `int` comparison, hence `Int` here). -/
def gmbAux (anchorStart : Nat) : List (Nat × Match) → List (Nat × Match)
  | [] => []
  | (j, m) :: rest =>
    if ¬ m.isSentEnd ∧ (m.stop : Int) < (anchorStart : Int) - BEFORE_SNIPPET_LIMIT then []
    else (j, m) :: gmbAux anchorStart rest

/-- `get_matches_before(i)` of `extract_quantities` (also with the module
constant, not the configured `before_snippet_limit`).  The anchor itself is
yielded first. -/
def get_matches_before (ms : List Match) (i : Nat) : List (Nat × Match) :=
  match ms.get? i with
  | none => []
  | some anchor => gmbAux anchor.start ((List.enum (ms.take (i + 1))).reverse)

def c2Matches : List Match :=
  [⟨0, 2, "number", "7", false⟩, ⟨7, 8, "cm", "cm", false⟩]

def c2bMatches : List Match :=
  [⟨10, 12, "cm", "cm", false⟩, ⟨20, 21, "number", "5", false⟩]

/-- Claim C2, evaluation at the failing input: the search windows are the
module constants 6 and 10, whatever the configured limits.  The forward
search from the number `[0,2)` still yields the unit candidate starting 5
tokens past the number's end (so any configured `after_snippet_limit < 5` is
ignored), and the backward search from the number `[20,21)` still yields the
unit candidate ending 8 tokens before the number's start (so any configured
`before_snippet_limit < 8` is ignored); `get_matches_after` and
`get_matches_before` take no limit argument at all. -/
theorem c2_window_constants :
    get_matches_after c2Matches 0 = [(1, ⟨7, 8, "cm", "cm", false⟩)]
    ∧ (⟨7, 8, "cm", "cm", false⟩ : Match).start
        = (⟨0, 2, "number", "7", false⟩ : Match).stop + 5
    ∧ get_matches_before c2bMatches 1
        = [(1, ⟨20, 21, "number", "5", false⟩), (0, ⟨10, 12, "cm", "cm", false⟩)]
    ∧ (⟨10, 12, "cm", "cm", false⟩ : Match).stop + 8
        = (⟨20, 21, "number", "5", false⟩ : Match).start := by
  decide

/-- One entry of a unitless pattern's `ranges` list: optional bounds and the
unit the range dispatches to. -/
structure UnitlessRange where
  rmin : Option Int
  rmax : Option Int
  unit : String
deriving DecidableEq, Repr

/-- `pseudo[a:b]` on the pseudo-sentence (a nonnegative Python slice). -/
def sliceChars (l : List Char) (a b : Nat) : List Char :=
  (l.take b).drop a

/-- `re.fullmatch(r"(,n)*", ...)`: the slice is a repetition of `,n`. -/
def isCommaNumSeq : List Char → Bool
  | [] => true
  | [_] => false
  | c1 :: c2 :: rest => (c1 == ',') && (c2 == 'n') && isCommaNumSeq rest

/-- The unitless-trigger fallback of `extract_quantities` (lines 1079-1099):
take the nearest backward match whose label has a unitless pattern (the
`unitless_label_hashes` membership test and the `unitless_patterns` dict are
populated together in `__init__`, so one association list models both); if
the intervening pseudo-sentence slice fullmatches `[,:n]*`, dispatch on the
first declared range containing the value (`min` inclusive, `max`
exclusive, a missing bound unrestricted).  Both the no-trigger and the
no-containing-range `StopIteration` are caught, leaving no unit. -/
def unitlessFallback (patterns : List (String × List UnitlessRange))
    (ms : List Match) (pseudo : List Char) (offsets : List Nat)
    (i : Nat) (value : ℚ) : Option String :=
  match (get_matches_before ms i).find?
      (fun jm => (dictGet? patterns jm.2.label).isSome) with
  | none => none
  | some (j, e) =>
    if (sliceChars pseudo (offsets.getD j 0 + 1) (offsets.getD i 0)).all
        (fun c => (c == ',') || (c == ':') || (c == 'n')) then
      match dictGet? patterns e.label with
      | none => none
      | some ranges =>
        (ranges.find? (fun r =>
          (r.rmin.all (fun m => decide ((m : ℚ) ≤ value)))
          && (r.rmax.all (fun M => decide (value < (M : ℚ)))))).map
          (fun r => r.unit)
    else none

/-- Whether the parsed value lies in the half-open interval `[min, max)` of a
unitless range, a missing bound leaving that side unbounded. -/
def inHalfOpenRange (r : UnitlessRange) (value : ℚ) : Bool :=
  (match r.rmin with
   | none => true
   | some m => decide ((m : ℚ) ≤ value)) &&
  (match r.rmax with
   | none => true
   | some M => decide (value < (M : ℚ)))

/-- Modelled from the claim's wording (C7): search backward for a
unitless-trigger term; if every code of the intervening pseudo-sentence
slice is a comma, colon or number code, assign the unit of the first
declared range whose half-open interval contains the value; otherwise no
unit, and the number yields no quantity. -/
def unitlessFallbackSpec (patterns : List (String × List UnitlessRange))
    (ms : List Match) (pseudo : List Char) (offsets : List Nat)
    (i : Nat) (value : ℚ) : Option String :=
  match (get_matches_before ms i).find?
      (fun jm => (dictGet? patterns jm.2.label).isSome) with
  | none => none
  | some (j, e) =>
    if (sliceChars pseudo (offsets.getD j 0 + 1) (offsets.getD i 0)).all
        (fun c => [',', ':', 'n'].contains c) then
      match dictGet? patterns e.label with
      | none => none
      | some ranges =>
        (ranges.find? (fun r => inHalfOpenRange r value)).map (fun r => r.unit)
    else none

/-- Claim C7: the unitless-trigger fallback of the Linker computes exactly
the dispatch the specification describes: nearest backward trigger within
the window, intervening slice restricted to comma/colon/number codes, first
range whose `[min, max)` (missing bound unbounded) contains the parsed
value; in every other case it yields no unit, and the number then produces
no quantity. -/
theorem c7_unitless_dispatch (patterns : List (String × List UnitlessRange))
    (ms : List Match) (pseudo : List Char) (offsets : List Nat)
    (i : Nat) (value : ℚ) :
    unitlessFallback patterns ms pseudo offsets i value
      = unitlessFallbackSpec patterns ms pseudo offsets i value := by
  unfold unitlessFallback unitlessFallbackSpec
  cases hf : (get_matches_before ms i).find?
      (fun jm => (dictGet? patterns jm.2.label).isSome) with
  | none => rfl
  | some je =>
    obtain ⟨j, e⟩ := je
    have hslice : ((sliceChars pseudo (offsets.getD j 0 + 1)
          (offsets.getD i 0)).all
        (fun c => (c == ',') || (c == ':') || (c == 'n')))
      = ((sliceChars pseudo (offsets.getD j 0 + 1) (offsets.getD i 0)).all
        (fun c => [',', ':', 'n'].contains c)) := by
      induction sliceChars pseudo (offsets.getD j 0 + 1) (offsets.getD i 0) with
      | nil => rfl
      | cons c t ih =>
        simp only [List.all_cons, ih]
        congr 1
        cases h1 : c == ',' <;> cases h2 : c == ':' <;> cases h3 : c == 'n' <;>
          simp [List.contains, List.elem, h1, h2, h3]
    have hrange : (fun r : UnitlessRange =>
        (r.rmin.all (fun m => decide ((m : ℚ) ≤ value)))
        && (r.rmax.all (fun M => decide (value < (M : ℚ)))))
      = (fun r => inHalfOpenRange r value) := by
      funext r
      unfold inHalfOpenRange
      cases r.rmin <;> cases r.rmax <;> rfl
    show (if ((sliceChars pseudo (offsets.getD j 0 + 1)
            (offsets.getD i 0)).all
          (fun c => (c == ',') || (c == ':') || (c == 'n'))) = true then
        (match dictGet? patterns e.label with
         | none => none
         | some ranges =>
           (ranges.find? (fun r =>
             (r.rmin.all (fun m => decide ((m : ℚ) ≤ value)))
             && (r.rmax.all (fun M => decide (value < (M : ℚ)))))).map
             (fun r => r.unit))
        else none)
      = (if ((sliceChars pseudo (offsets.getD j 0 + 1)
            (offsets.getD i 0)).all
          (fun c => [',', ':', 'n'].contains c)) = true then
        (match dictGet? patterns e.label with
         | none => none
         | some ranges =>
           (ranges.find? (fun r => inHalfOpenRange r value)).map
             (fun r => r.unit))
        else none)
    rw [hslice, hrange]

/-- Association-list lookup keyed by a dimension signature. -/
def measureGet? (l : List (List (String × Int) × String))
    (k : List (String × Int)) : Option String :=
  (l.find? (fun p => p.1 = k)).map (fun p => p.2)

/-- The matcher state read by the extraction loop (a configuration without
tables: with `use_tables` unset the table step iterates over no table and is
a no-op, which is the case modelled here). -/
structure MatcherConfig where
  reg : List (String × UnitConfig)
  numberLabels : List String
  unitLabels : List String
  unitlessPatterns : List (String × List UnitlessRange)
  unitFollowers : List (String × String)
  measureNames : List (List (String × Int) × String)
  allQuantities : Bool
deriving DecidableEq, Repr

/-- The loop state of `extract_quantities`: the quantities built so far and
the `matched_unit_indices` / `matched_number_indices` bookkeeping sets
(association-free lists, only ever appended to). -/
structure LoopState where
  quantities : List QSpan
  matchedUnits : List Nat
  matchedNumbers : List Nat
deriving DecidableEq, Repr

def digitsToNat (l : List Char) : Nat :=
  l.foldl (fun acc c => acc * 10 + (c.toNat - '0'.toNat)) 0

/-- The numeric value of a digit string with at most one dot. -/
def ratOfChars (l : List Char) : ℚ :=
  let intPart := l.takeWhile (fun c => c ≠ '.')
  let rest := l.dropWhile (fun c => c ≠ '.')
  match rest with
  | [] => (digitsToNat intPart : ℚ)
  | _ :: frac =>
    (digitsToNat intPart : ℚ) + (digitsToNat frac : ℚ) / ((10 : ℚ) ^ frac.length)

/-- The normalization applied to a matched number text before evaluation:
drop spaces (both the plain and the no-break space of the source), turn the
decimal comma into a dot, strip leading zeros. -/
def normalizeNumberText (s : String) : List Char :=
  ((s.data.filter (fun c => ¬ (c = ' ' ∨ c = ' '))).map
    (fun c => if c = ',' then '.' else c)).dropWhile (fun c => c = '0')

/-- `eval` restricted to the numeric literals this pipeline feeds it:
digits with at most one dot evaluate; anything else (the empty string, a
bare dot, a non-numeric label) raises, which the loop catches and skips.
(The spec itself mandates replacing the source's `eval` by such a parser.) -/
def parsePyNumber (l : List Char) : Option ℚ :=
  if l ≠ [] ∧ l.all (fun c => c.isDigit || (c == '.')) ∧ l.count '.' ≤ 1
      ∧ l ≠ ['.']
  then some (ratOfChars l)
  else none

/-- `eval(number_text or "0")` for a span labelled `number`: normalize the
matched text, an empty normalization standing for `"0"`. -/
def parseNumberText (s : String) : Option ℚ :=
  parsePyNumber
    (if normalizeNumberText s = [] then ['0'] else normalizeNumberText s)

/-- `doc[a:b].text.strip() == ""`: every token of the slice is blank. -/
def PyDoc.blankBetween (d : PyDoc) (a b : Nat) : Bool :=
  ((d.tokens.drop a).take (b - a)).all (fun t => t.trim == "")

/-- Steps 1, 3 and 4 of the per-number unit resolution (the table step is a
no-op without tables): nearest following unit filtered by the
enumeration-only pseudo-sentence check, then follower-unit inference, then
the unitless-trigger fallback.  Returns the resolved unit together with the
index and span of the step-1 unit candidate (which the source keeps for the
entity boundary even when the pseudo-sentence check rejected it). -/
def resolveUnit (cfg : MatcherConfig) (ms : List Match) (pseudo : List Char)
    (offsets : List Nat) (st : LoopState) (i : Nat) (number : Match)
    (value : ℚ) : Option String × Option Nat × Option Match :=
  let afterUnit := (get_matches_after ms i).find?
    (fun jm => jm.2.label ∈ cfg.unitLabels)
  let unitNorm1 : Option String :=
    match afterUnit with
    | none => none
    | some (j, um) =>
      if isCommaNumSeq (sliceChars pseudo (offsets.getD i 0 + 1)
          (offsets.getD j 0))
      then some um.label else none
  let unitNorm2 : Option String :=
    match unitNorm1 with
    | some u => some u
    | none =>
      if i ≥ 1 ∧ (i - 1) ∈ st.matchedUnits then
        match ms.get? (i - 1) with
        | some unitBefore =>
          if unitBefore.stop = number.start then
            dictGet? cfg.unitFollowers unitBefore.label
          else none
        | none => none
      else none
  let unitNorm3 : Option String :=
    match unitNorm2 with
    | some u => some u
    | none => unitlessFallback cfg.unitlessPatterns ms pseudo offsets i value
  (unitNorm3, afterUnit.map (fun jm => jm.1), afterUnit.map (fun jm => jm.2))

/-- The boundary of the produced entity: include the step-1 unit span when
it is adjacent to the number across only blank text, on either side;
otherwise the entity is the number span alone. -/
def entBounds (d : PyDoc) (number : Match) (unitText : Option Match) :
    Nat × Nat :=
  match unitText with
  | some ut =>
    if number.start ≤ ut.stop ∧ d.blankBetween number.stop ut.start
    then (number.start, ut.stop)
    else if ut.start ≤ number.stop ∧ d.blankBetween ut.stop number.start
    then (ut.start, number.stop)
    else (number.start, number.stop)
  | none => (number.start, number.stop)

/-- The body of the number loop of `extract_quantities` for index `i`,
acting on the accumulated state. -/
def processMatch (cfg : MatcherConfig) (d : PyDoc) (ms : List Match)
    (pseudo : List Char) (offsets : List Nat) (st : LoopState) (i : Nat) :
    LoopState :=
  match ms.get? i with
  | none => st
  | some number =>
    if ¬ number.isSentEnd ∧ number.label ∉ cfg.numberLabels then st
    else
      match (if number.label = "number"
             then parseNumberText number.text
             else parsePyNumber number.label.data) with
      | none => st
      | some value =>
        match resolveUnit cfg ms pseudo offsets st i number value with
        | (none, _, _) => st
        | (some unitNorm, unitIdx, unitText) =>
          if unitNorm = "" then st
          else
            match parse_unit cfg.reg unitNorm with
            | none => st
            | some (dims, _) =>
              if (measureGet? cfg.measureNames dims).isNone
                  ∧ ¬ cfg.allQuantities then st
              else
                { quantities := st.quantities ++
                    [⟨(entBounds d number unitText).1,
                      (entBounds d number unitText).2,
                      (if cfg.allQuantities then unitNorm
                       else (measureGet? cfg.measureNames dims).getD ""),
                      .simple value unitNorm⟩],
                  matchedUnits :=
                    match unitIdx with
                    | some j => st.matchedUnits ++ [j]
                    | none => st.matchedUnits,
                  matchedNumbers := st.matchedNumbers ++ [i] }

/-- The number loop of `extract_quantities` over every match index. -/
def extractLoop (cfg : MatcherConfig) (d : PyDoc) (ms : List Match)
    (pseudo : List Char) (offsets : List Nat) : LoopState :=
  (List.range ms.length).foldl (processMatch cfg d ms pseudo offsets)
    ⟨[], [], []⟩

/-- `extract_quantities`: the produced quantity spans together with the
unmatched diagnostic list (unit candidates never consumed and number
candidates that produced no quantity). -/
def extract_quantities (cfg : MatcherConfig) (d : PyDoc) (ms : List Match)
    (pseudo : List Char) (offsets : List Nat) : List QSpan × List Match :=
  let st := extractLoop cfg d ms pseudo offsets
  (st.quantities,
   (List.enum ms).filterMap (fun im =>
     if (im.2.label ∈ cfg.unitLabels ∧ im.1 ∉ st.matchedUnits)
        ∨ (im.2.label ∈ cfg.numberLabels ∧ im.1 ∉ st.matchedNumbers)
     then some im.2 else none))

/-- Either an iteration leaves the state alone, or it appends exactly its
own index to `matched_number_indices`. -/
theorem processMatch_matchedNumbers (cfg : MatcherConfig) (d : PyDoc)
    (ms : List Match) (pseudo : List Char) (offsets : List Nat)
    (st : LoopState) (i : Nat) :
    (processMatch cfg d ms pseudo offsets st i).matchedNumbers
        = st.matchedNumbers
    ∨ (processMatch cfg d ms pseudo offsets st i).matchedNumbers
        = st.matchedNumbers ++ [i] := by
  unfold processMatch
  repeat first
  | (left; rfl)
  | (right; rfl)
  | split

/-- An index whose iteration is a no-op never enters
`matched_number_indices`, whatever the other iterations do. -/
theorem notMem_matchedNumbers_foldl (cfg : MatcherConfig) (d : PyDoc)
    (ms : List Match) (pseudo : List Char) (offsets : List Nat) (i : Nat)
    (hid : ∀ st, processMatch cfg d ms pseudo offsets st i = st)
    (l : List Nat) : ∀ st, i ∉ st.matchedNumbers →
    i ∉ (l.foldl (processMatch cfg d ms pseudo offsets) st).matchedNumbers := by
  induction l with
  | nil => intro st hst; exact hst
  | cons k t ih =>
    intro st hst
    rw [List.foldl_cons]
    by_cases hk : k = i
    · rw [hk, hid st]
      exact ih st hst
    · apply ih
      rcases processMatch_matchedNumbers cfg d ms pseudo offsets st k with h | h
      · rw [h]; exact hst
      · rw [h]
        intro hmem
        rcases List.mem_append.mp hmem with hmem | hmem
        · exact hst hmem
        · exact hk (List.mem_singleton.mp hmem).symm

/-- Claim C9: when the unit resolved for a number (here through the
nearest-following-unit strategy) contains an atom absent from the registry,
the `KeyError` of `parse_unit` is caught locally: the iteration leaves the
state unchanged (no quantity span, no fault escapes, the loop goes on), and
the number ends up in the unmatched diagnostic list. -/
theorem c9_unknown_unit_recoverable (cfg : MatcherConfig) (d : PyDoc)
    (ms : List Match) (pseudo : List Char) (offsets : List Nat)
    (i j : Nat) (m um : Match)
    (hm : ms.get? i = some m)
    (hnum : m.label ∈ cfg.numberLabels)
    (hafter : (get_matches_after ms i).find?
        (fun jm => jm.2.label ∈ cfg.unitLabels) = some (j, um))
    (hpseudo : isCommaNumSeq (sliceChars pseudo (offsets.getD i 0 + 1)
        (offsets.getD j 0)) = true)
    (hune : um.label ≠ "")
    (hparse : parse_unit cfg.reg um.label = none) :
    (∀ st, processMatch cfg d ms pseudo offsets st i = st)
    ∧ m ∈ (extract_quantities cfg d ms pseudo offsets).2 := by
  have hres : ∀ st value, resolveUnit cfg ms pseudo offsets st i m value
      = (some um.label, some j, some um) := by
    intro st value
    unfold resolveUnit
    rw [hafter]
    simp only [hpseudo, if_true, Option.map_some']
  have hcond : ¬ (¬ m.isSentEnd = true ∧ m.label ∉ cfg.numberLabels) :=
    fun hcon => hcon.2 hnum
  have hid : ∀ st, processMatch cfg d ms pseudo offsets st i = st := by
    intro st
    cases hval : (if m.label = "number"
        then parseNumberText m.text
        else parsePyNumber m.label.data) with
    | none =>
      simp only [processMatch, hm, hcond, if_false, hval]
    | some value =>
      simp only [processMatch, hm, hcond, if_false, hval, hres st value,
        hune, hparse]
  refine ⟨hid, ?_⟩
  unfold extract_quantities
  have hnotmem : i ∉ (extractLoop cfg d ms pseudo offsets).matchedNumbers := by
    unfold extractLoop
    exact notMem_matchedNumbers_foldl cfg d ms pseudo offsets i hid _ _
      (by simp)
  apply List.mem_filterMap.mpr
  refine ⟨(i, m), ?_, ?_⟩
  · rw [List.mem_enum_iff_getElem?]
    rw [← List.get?_eq_getElem?]
    exact hm
  · rw [if_pos (Or.inr ⟨hnum, hnotmem⟩)]

/-- Claim C3 witness: the closure theorem applied to the atom `m` of the
demo registry. -/
theorem c3_witness :
    ∃ sig sc, parse_unit (buildRegistry demoCfg) "m" = some (sig, sc) ∧
      parse_unit (buildRegistry demoCfg) ("per_" ++ "m") =
        some (sig.map (fun p => (p.1, -p.2)), sc⁻¹) :=
  c3_per_unit_closure demoCfg "m" ⟨"length", 1, 1⟩
    (by with_unfolding_all decide) (by with_unfolding_all decide)
    (by with_unfolding_all decide) (by with_unfolding_all decide)
    (by with_unfolding_all decide) (by with_unfolding_all decide)

/-- Claim C1 witness: 1 m versus 100 cm (and the range 1-2 m versus
100-200 cm) on the demo registry. -/
theorem c1_witness :
    ((simpleEqAny (buildRegistry demoCfg) 1 "m" (.q (.simple 100 "cm"))
        = some true)
      ↔ convertTo (buildRegistry demoCfg) (.simple 100 "cm") "m"
        = some (.num 1))
    ∧ ((rangeEqAny (buildRegistry demoCfg) (.num 1) (.num 2) "m"
          (.q (.range (.num 100) (.num 200) "cm")) = some true)
      ↔ convertTo (buildRegistry demoCfg)
          (.range (.num 100) (.num 200) "cm") "m"
        = some (.pair (.num 1) (.num 2))) :=
  c1_eq_iff_convert (buildRegistry demoCfg) 1 100 1 2 100 200 "m" "cm"
    [("length", 1)] 1 (1/100)
    (by with_unfolding_all decide) (by with_unfolding_all decide)
    (by with_unfolding_all decide) (by with_unfolding_all decide)

/-- Claim C6 witness: the composite key `g_per_m` (atoms `g` and the
auto-generated `per_m`) on the demo registry. -/
theorem c6_witness :
    parse_unit (buildRegistry demoCfg) "g_per_m"
      = parse_unit_spec (buildRegistry demoCfg) "g_per_m" :=
  c6_parse_unit_composite (buildRegistry demoCfg) "g_per_m"
    (by with_unfolding_all decide)

def c9Cfg : MatcherConfig :=
  { reg := buildRegistry demoCfg,
    numberLabels := ["number"],
    unitLabels := ["g_per_per_m"],
    unitlessPatterns := [],
    unitFollowers := [],
    measureNames := [([("mass", 1)], "weight")],
    allQuantities := false }

def c9Doc : PyDoc := ⟨["3", "g per per m"]⟩

def c9Matches : List Match :=
  [⟨0, 1, "number", "3", false⟩, ⟨1, 2, "g_per_per_m", "g per per m", false⟩]

/-- Claim C9 witness: the number 3 linked to the composed unit label
`g_per_per_m` (whose atom `per_per_m` is not registered) yields no quantity
and lands in the unmatched list. -/
theorem c9_witness :
    processMatch c9Cfg c9Doc c9Matches ['n', 'u'] [0, 1] ⟨[], [], []⟩ 0
        = ⟨[], [], []⟩
    ∧ (⟨0, 1, "number", "3", false⟩ : Match)
        ∈ (extract_quantities c9Cfg c9Doc c9Matches ['n', 'u'] [0, 1]).2 := by
  have h := c9_unknown_unit_recoverable c9Cfg c9Doc c9Matches ['n', 'u'] [0, 1]
    0 1 ⟨0, 1, "number", "3", false⟩ ⟨1, 2, "g_per_per_m", "g per per m", false⟩
    (by decide) (by decide) (by decide) (by decide) (by decide)
    (by with_unfolding_all decide)
  exact ⟨h.1 ⟨[], [], []⟩, h.2⟩

end EdsnlpQuantities
